import Mathlib

/-!
# Verification of the RPFM table-view utilities, settings and CLI config layer

This development shallowly embeds the Rust code of the repository
(`rpfm_ui/src/views/table/utils.rs`, `rpfm_lib/src/settings/mod.rs`,
`rpfm_cli/src/config.rs`) into Lean and proves properties of the embedding.

Modelling conventions:
* `BTreeMap<K, V>` is modelled as an association list `List (K × V)` whose
  keys are unique when the map is built through `RMap.set`; `RMap.set` is
  Rust's `BTreeMap::insert` (overwrite), `RMap.get` is `BTreeMap::get`,
  `RMap.append` is `BTreeMap::append` (the other map's values win).
* Machine floats (`f32`) are modelled by their exact rational values;
  rounding to the nearest representable `f32` is `roundF32`.
* A Rust panic (`unwrap` on `None`, indexing a map with a missing key) is
  modelled by an `Option` result being `none`.
-/

set_option maxRecDepth 4000

namespace RPFM

/-! ## Association-list model of `BTreeMap` -/

/-- Lookup in an association-list map: the first entry with the given key.
Models `BTreeMap::get` (a `BTreeMap` holds at most one entry per key). -/
def RMap.get {α : Type _} [DecidableEq α] {β : Type _}
    (m : List (α × β)) (k : α) : Option β :=
  match m with
  | [] => none
  | kv :: rest => if kv.1 = k then some kv.2 else RMap.get rest k

/-- Insertion in an association-list map, overwriting an existing entry with
the same key.  Models `BTreeMap::insert`. -/
def RMap.set {α : Type _} [DecidableEq α] {β : Type _}
    (m : List (α × β)) (k : α) (v : β) : List (α × β) :=
  match m with
  | [] => [(k, v)]
  | kv :: rest => if kv.1 = k then (k, v) :: rest else kv :: RMap.set rest k v

/-- Removal of a key from an association-list map (first entry with that key).
Models `BTreeMap::remove`. -/
def RMap.del {α : Type _} [DecidableEq α] {β : Type _}
    (m : List (α × β)) (k : α) : List (α × β) :=
  match m with
  | [] => []
  | kv :: rest => if kv.1 = k then rest else kv :: RMap.del rest k

/-- `BTreeMap::append`: move every entry of `other` into `self`; on key
clashes the value coming from `other` overwrites the one in `self`. -/
def RMap.append {α : Type _} [DecidableEq α] {β : Type _}
    (m other : List (α × β)) : List (α × β) :=
  other.foldl (fun acc kv => RMap.set acc kv.1 kv.2) m

/-- The keys of the map are pairwise distinct (true of every map built with
`RMap.set` from `[]`, as a real `BTreeMap` is). -/
def RMap.keysNodup {α : Type _} {β : Type _} (m : List (α × β)) : Prop :=
  (m.map Prod.fst).Nodup

instance {α : Type _} {β : Type _} [DecidableEq α] (m : List (α × β)) :
    Decidable (RMap.keysNodup m) :=
  inferInstanceAs (Decidable (m.map Prod.fst).Nodup)

/-- The value of the *last* entry carrying the given key; used to describe
`RMap.append` on argument lists that may repeat a key. -/
def RMap.lastGet {α : Type _} [DecidableEq α] {β : Type _}
    (m : List (α × β)) (k : α) : Option β :=
  match m with
  | [] => none
  | kv :: rest =>
    match RMap.lastGet rest k with
    | some v => some v
    | none => if kv.1 = k then some kv.2 else none

theorem RMap.get_set {α : Type _} [DecidableEq α] {β : Type _}
    (m : List (α × β)) (k k' : α) (v : β) :
    RMap.get (RMap.set m k v) k' = if k = k' then some v else RMap.get m k' := by
  induction m with
  | nil => simp [RMap.set, RMap.get, eq_comm]
  | cons kv rest ih =>
    by_cases h1 : kv.1 = k
    · rw [RMap.set, if_pos h1, RMap.get, RMap.get, h1]
      by_cases h2 : k = k' <;> simp [h2]
    · rw [RMap.set, if_neg h1, RMap.get]
      by_cases h2 : kv.1 = k'
      · have hkk : ¬ k = k' := fun h => h1 (h ▸ h2)
        rw [if_pos h2, if_neg hkk, RMap.get, if_pos h2]
      · rw [if_neg h2, ih, RMap.get, if_neg h2]

theorem RMap.get_del_ne {α : Type _} [DecidableEq α] {β : Type _}
    (m : List (α × β)) (k k' : α) (h : k ≠ k') :
    RMap.get (RMap.del m k) k' = RMap.get m k' := by
  induction m with
  | nil => simp [RMap.del]
  | cons kv rest ih =>
    by_cases h1 : kv.1 = k
    · have hne : ¬ kv.1 = k' := fun hh => h (h1 ▸ hh)
      rw [RMap.del, if_pos h1, RMap.get, if_neg hne]
    · rw [RMap.del, if_neg h1, RMap.get, RMap.get, ih]

theorem RMap.keysNodup_cons {α : Type _} {β : Type _}
    (kv : α × β) (rest : List (α × β)) (h : RMap.keysNodup (kv :: rest)) :
    (∀ x ∈ rest, x.1 ≠ kv.1) ∧ RMap.keysNodup rest := by
  rw [RMap.keysNodup, List.map_cons, List.nodup_cons] at h
  refine ⟨fun x hx he => h.1 (List.mem_map.2 ⟨x, hx, he⟩), h.2⟩

theorem RMap.get_eq_none_of_forall_ne {α : Type _} [DecidableEq α] {β : Type _}
    (m : List (α × β)) (k : α) (h : ∀ x ∈ m, x.1 ≠ k) :
    RMap.get m k = none := by
  induction m with
  | nil => rfl
  | cons kv rest ih =>
    rw [RMap.get, if_neg (h kv (by simp))]
    exact ih (fun x hx => h x (List.mem_cons_of_mem _ hx))

theorem RMap.get_del_self {α : Type _} [DecidableEq α] {β : Type _}
    (m : List (α × β)) (k : α) (hnd : RMap.keysNodup m) :
    RMap.get (RMap.del m k) k = none := by
  induction m with
  | nil => rfl
  | cons kv rest ih =>
    obtain ⟨hmem, hnd'⟩ := RMap.keysNodup_cons kv rest hnd
    by_cases h1 : kv.1 = k
    · rw [RMap.del, if_pos h1]
      exact RMap.get_eq_none_of_forall_ne rest k (fun x hx => h1 ▸ hmem x hx)
    · rw [RMap.del, if_neg h1, RMap.get, if_neg h1]
      exact ih hnd'

theorem RMap.keysNodup_nil {α : Type _} {β : Type _} :
    RMap.keysNodup ([] : List (α × β)) := by
  simp [RMap.keysNodup]

theorem RMap.mem_set {α : Type _} [DecidableEq α] {β : Type _}
    (m : List (α × β)) (k : α) (v : β) (x : α × β) (hx : x ∈ RMap.set m k v) :
    x.1 = k ∨ x ∈ m := by
  induction m with
  | nil =>
    rw [RMap.set, List.mem_singleton] at hx
    exact Or.inl (by rw [hx])
  | cons kv rest ih =>
    by_cases h2 : kv.1 = k
    · rw [RMap.set, if_pos h2, List.mem_cons] at hx
      rcases hx with h | h
      · exact Or.inl (by rw [h])
      · exact Or.inr (List.mem_cons_of_mem _ h)
    · rw [RMap.set, if_neg h2, List.mem_cons] at hx
      rcases hx with h | h
      · exact Or.inr (by simp [h])
      · rcases ih h with h' | h'
        · exact Or.inl h'
        · exact Or.inr (List.mem_cons_of_mem _ h')

theorem RMap.keysNodup_set {α : Type _} [DecidableEq α] {β : Type _}
    (m : List (α × β)) (k : α) (v : β) (h : RMap.keysNodup m) :
    RMap.keysNodup (RMap.set m k v) := by
  induction m with
  | nil => simp [RMap.set, RMap.keysNodup]
  | cons kv rest ih =>
    obtain ⟨hmem, hnd⟩ := RMap.keysNodup_cons kv rest h
    by_cases h1 : kv.1 = k
    · rw [RMap.set, if_pos h1, RMap.keysNodup, List.map_cons, List.nodup_cons]
      constructor
      · intro hk
        obtain ⟨x, hx, he⟩ := List.mem_map.1 hk
        exact hmem x hx (he.trans h1.symm)
      · exact hnd
    · rw [RMap.set, if_neg h1, RMap.keysNodup, List.map_cons, List.nodup_cons]
      constructor
      · intro hk
        obtain ⟨x, hx, he⟩ := List.mem_map.1 hk
        rcases RMap.mem_set rest k v x hx with h' | h'
        · exact h1 (he ▸ h')
        · exact hmem x h' he
      · exact ih hnd

theorem RMap.get_append {α : Type _} [DecidableEq α] {β : Type _}
    (m other : List (α × β)) (k : α) :
    RMap.get (RMap.append m other) k =
      (RMap.lastGet other k).or (RMap.get m k) := by
  induction other generalizing m with
  | nil => simp [RMap.append, RMap.lastGet]
  | cons kv rest ih =>
    have step : RMap.append m (kv :: rest) = RMap.append (RMap.set m kv.1 kv.2) rest := by
      simp [RMap.append]
    rw [step, ih]
    cases hrest : RMap.lastGet rest k with
    | some v => simp [RMap.lastGet, hrest]
    | none =>
      by_cases h1 : kv.1 = k
      · simp [RMap.lastGet, hrest, h1, RMap.get_set]
      · simp [RMap.lastGet, hrest, h1, RMap.get_set]

theorem RMap.lastGet_eq_get {α : Type _} [DecidableEq α] {β : Type _}
    (m : List (α × β)) (k : α) (h : RMap.keysNodup m) :
    RMap.lastGet m k = RMap.get m k := by
  induction m with
  | nil => rfl
  | cons kv rest ih =>
    obtain ⟨hmem, hnd⟩ := RMap.keysNodup_cons kv rest h
    rw [RMap.lastGet, ih hnd, RMap.get]
    by_cases h1 : kv.1 = k
    · have : RMap.get rest k = none :=
        RMap.get_eq_none_of_forall_ne rest k (fun x hx => h1 ▸ hmem x hx)
      simp [this, h1]
    · cases h2 : RMap.get rest k <;> simp [h1, h2]

/-! ## `rpfm_lib/src/settings/mod.rs` -/

/-- The `Settings` struct: three string-keyed `BTreeMap`s.  `PathBuf` is
modelled as `String`. -/
structure Settings where
  paths : List (String × Option String)
  settings_string : List (String × String)
  settings_bool : List (String × Bool)

/-- `Settings::new`.  The iteration over `SUPPORTED_GAMES` and the values of
the constants `KEY_THREE_KINGDOMS` (default game) and `STABLE` (update
channel) live in modules that are not part of the sources at hand, so the
supported-game folder names and those two constant strings are taken as
parameters; everything else is the literal list of inserts of the source. -/
def Settings.new (games : List String) (key_three_kingdoms stable : String) : Settings :=
  let paths : List (String × Option String) := []
  let settings_string : List (String × String) := []
  let settings_bool : List (String × Bool) := []
  let paths := RMap.set paths "mymods_base_path" none
  let paths := RMap.set paths "7zip_path" none
  let paths := games.foldl (fun acc folder_name => RMap.set acc folder_name none) paths
  -- General Settings.
  let settings_string := RMap.set settings_string "default_game" key_three_kingdoms
  let settings_string := RMap.set settings_string "language" "English_en"
  let settings_string := RMap.set settings_string "update_channel" stable
  let settings_string := RMap.set settings_string "autosave_amount" "10"
  let settings_string := RMap.set settings_string "autosave_interval" "5"
  let settings_string := RMap.set settings_string "font_name" ""
  let settings_string := RMap.set settings_string "font_size" ""
  let settings_string := RMap.set settings_string "recent_files" "[]"
  -- UI Settings.
  let settings_bool := RMap.set settings_bool "start_maximized" false
  let settings_bool := RMap.set settings_bool "use_dark_theme" false
  let settings_bool := RMap.set settings_bool "hide_background_icon" false
  let settings_bool := RMap.set settings_bool "allow_editing_of_ca_packfiles" false
  let settings_bool := RMap.set settings_bool "check_updates_on_start" true
  let settings_bool := RMap.set settings_bool "check_schema_updates_on_start" true
  let settings_bool := RMap.set settings_bool "check_template_updates_on_start" true
  let settings_bool := RMap.set settings_bool "use_lazy_loading" true
  let settings_bool := RMap.set settings_bool "optimize_not_renamed_packedfiles" false
  let settings_bool := RMap.set settings_bool "disable_uuid_regeneration_on_db_tables" false
  let settings_bool := RMap.set settings_bool "packfile_treeview_resize_to_fit" false
  let settings_bool := RMap.set settings_bool "expand_treeview_when_adding_items" true
  -- Table Settings.
  let settings_bool := RMap.set settings_bool "adjust_columns_to_content" true
  let settings_bool := RMap.set settings_bool "extend_last_column_on_tables" true
  let settings_bool := RMap.set settings_bool "disable_combos_on_tables" false
  let settings_bool := RMap.set settings_bool "tight_table_mode" false
  let settings_bool := RMap.set settings_bool "table_resize_on_edit" false
  let settings_bool := RMap.set settings_bool "tables_use_old_column_order" false
  -- Debug Settings.
  let settings_bool := RMap.set settings_bool "check_for_missing_table_definitions" false
  let settings_bool := RMap.set settings_bool "enable_debug_menu" false
  let settings_bool := RMap.set settings_bool "spoof_ca_authoring_tool" false
  -- Diagnostics Settings.
  let settings_bool := RMap.set settings_bool "enable_diagnostics_tool" true
  let settings_bool := RMap.set settings_bool "diagnostics_trigger_on_open" true
  let settings_bool := RMap.set settings_bool "diagnostics_trigger_on_table_edit" true
  ⟨paths, settings_string, settings_bool⟩

/-- The add/remove reconciliation performed by `Settings::load` on one of the
three maps, after the file has been deserialized into `m`: first drop the
keys of `m` that the defaults `d` do not know, then add every default entry
whose key `m` is missing. -/
def Settings.reconcile {β : Type _} (d m : List (String × β)) : List (String × β) :=
  let keys_to_delete := (m.filter (fun kv => (RMap.get d kv.1).isNone)).map Prod.fst
  let m := keys_to_delete.foldl (fun acc key => RMap.del acc key) m
  d.foldl (fun acc kv => if (RMap.get acc kv.1).isNone then RMap.set acc kv.1 kv.2 else acc) m

/-- `Settings::load`, given the `Settings` value that the file deserialized
to (the file open and RON parsing are outside the model; a file that fails
either never reaches this merge).  The defaults are `Self::new()`, whose
external inputs are threaded through. -/
def Settings.load (games : List String) (key_three_kingdoms stable : String)
    (file_settings : Settings) : Settings :=
  let defaults := Settings.new games key_three_kingdoms stable
  { paths := Settings.reconcile defaults.paths file_settings.paths
    settings_string := Settings.reconcile defaults.settings_string file_settings.settings_string
    settings_bool := Settings.reconcile defaults.settings_bool file_settings.settings_bool }

/-- The list transformation inside `Settings::update_recent_files`: drop the
first occurrence of the new path, put the new path in front (the source does
reverse / push / reverse), keep at most 10 entries (`truncate(10)`). -/
def update_recent_files_list (recent_files : List String) (new_path : String) : List String :=
  let recent_files :=
    match recent_files.findIdx? (fun x => x == new_path) with
    | some index => recent_files.eraseIdx index
    | none => recent_files
  let recent_files := recent_files.reverse
  let recent_files := recent_files ++ [new_path]
  let recent_files := recent_files.reverse
  recent_files.take 10

/-- `Settings::update_recent_files`.  The function first replaces `self` by
the settings freshly loaded from disk (`loaded` here), then rewrites their
`recent_files` entry.  RON parsing/serialization of the stored list is
external code and passed in as `parse`/`ser`; `parse` returning `none` models
the `unwrap` panic, making the whole call return `none`. -/
def Settings.update_recent_files (parse : String → Option (List String))
    (ser : List String → String) (loaded : Settings) (new_path : String) :
    Option Settings :=
  match RMap.get loaded.settings_string "recent_files" with
  | none => some loaded
  | some stored =>
    match parse stored with
    | none => none
    | some recent_files =>
      some { loaded with
              settings_string := RMap.set loaded.settings_string "recent_files"
                (ser (update_recent_files_list recent_files new_path)) }

/-! ## `rpfm_cli/src/config.rs` -/

/-- The per-game record held by `SUPPORTED_GAMES`; only the `schema` file
name is used by `Config::new`. -/
structure GameInfo where
  schema : String

/-- The `Config` struct of the CLI. -/
structure Config (Schema : Type _) where
  game_selected : String
  schema : Schema
  settings : Settings
  verbosity_level : Nat

/-- Modelled from the spec: `load(game) -> Schema, fails with SchemaLoadError
when missing/corrupt` (spec §4.1).  `Schema::load` itself is not among the
sources at hand, so a schema loader is any function from a schema file name
to a schema or a load error. -/
def SchemaLoader (Schema Err : Type _) : Type _ :=
  String → Except Err Schema

/-- `Config::new`.  `SUPPORTED_GAMES` (declared outside the sources at hand)
is passed as the map `games`.  `SUPPORTED_GAMES[&*game_selected]` is
`Index::index`, which panics when the key is absent: the panic is the `none`
result.  On a present key, `Schema::load(...)?` propagates a load error and
otherwise the struct is built from the arguments unchanged. -/
def Config.new {Schema Err : Type _} (games : List (String × GameInfo))
    (load : SchemaLoader Schema Err) (game_selected : String)
    (settings : Settings) (verbosity_level : Nat) :
    Option (Except Err (Config Schema)) :=
  match RMap.get games game_selected with
  | none => none
  | some game_info =>
    some (match load game_info.schema with
      | Except.error e => Except.error e
      | Except.ok schema =>
        Except.ok { game_selected := game_selected, schema := schema,
                    settings := settings, verbosity_level := verbosity_level })

/-! ## Map lemmas for the settings reconciliation -/

theorem RMap.mem_del {α : Type _} [DecidableEq α] {β : Type _}
    (m : List (α × β)) (k : α) (x : α × β) (hx : x ∈ RMap.del m k) : x ∈ m := by
  induction m with
  | nil => exact absurd hx (by simp [RMap.del])
  | cons kv rest ih =>
    by_cases h1 : kv.1 = k
    · rw [RMap.del, if_pos h1] at hx
      exact List.mem_cons_of_mem _ hx
    · rw [RMap.del, if_neg h1, List.mem_cons] at hx
      rcases hx with h' | h'
      · simp [h']
      · exact List.mem_cons_of_mem _ (ih h')

theorem RMap.keysNodup_del {α : Type _} [DecidableEq α] {β : Type _}
    (m : List (α × β)) (k : α) (h : RMap.keysNodup m) :
    RMap.keysNodup (RMap.del m k) := by
  induction m with
  | nil => exact h
  | cons kv rest ih =>
    obtain ⟨hmem, hnd⟩ := RMap.keysNodup_cons kv rest h
    by_cases h1 : kv.1 = k
    · rw [RMap.del, if_pos h1]
      exact hnd
    · rw [RMap.del, if_neg h1, RMap.keysNodup, List.map_cons, List.nodup_cons]
      constructor
      · intro hk
        obtain ⟨x, hx, he⟩ := List.mem_map.1 hk
        exact hmem x (RMap.mem_del rest k x hx) he
      · exact ih hnd

theorem RMap.get_isSome_iff_key_mem {α : Type _} [DecidableEq α] {β : Type _}
    (m : List (α × β)) (k : α) :
    (RMap.get m k).isSome ↔ ∃ kv ∈ m, kv.1 = k := by
  induction m with
  | nil => simp [RMap.get]
  | cons kv rest ih =>
    by_cases h1 : kv.1 = k
    · constructor
      · intro _
        exact ⟨kv, by simp, h1⟩
      · intro _
        rw [RMap.get, if_pos h1]
        rfl
    · rw [RMap.get, if_neg h1, ih]
      constructor
      · rintro ⟨x, hx, he⟩
        exact ⟨x, List.mem_cons_of_mem _ hx, he⟩
      · rintro ⟨x, hx, he⟩
        rcases List.mem_cons.1 hx with h' | h'
        · exact absurd (h' ▸ he) h1
        · exact ⟨x, h', he⟩

theorem RMap.foldl_del_get {α : Type _} [DecidableEq α] {β : Type _}
    (ks : List α) (m : List (α × β)) (k : α) (h : RMap.keysNodup m) :
    RMap.get (ks.foldl (fun acc key => RMap.del acc key) m) k =
      if k ∈ ks then none else RMap.get m k := by
  induction ks generalizing m with
  | nil => simp
  | cons k0 ks' ih =>
    rw [List.foldl_cons, ih _ (RMap.keysNodup_del m k0 h)]
    by_cases h1 : k ∈ ks'
    · simp [h1]
    · by_cases h2 : k = k0
      · subst h2
        simp [h1, RMap.get_del_self m k h]
      · simp [h1, h2, RMap.get_del_ne m k0 k (fun hh => h2 hh.symm)]

theorem RMap.foldl_ins_get {α : Type _} [DecidableEq α] {β : Type _}
    (d : List (α × β)) (m : List (α × β)) (k : α) (h : RMap.keysNodup d) :
    RMap.get (d.foldl
        (fun acc kv => if (RMap.get acc kv.1).isNone then RMap.set acc kv.1 kv.2 else acc) m) k =
      (RMap.get d k).elim (RMap.get m k) (fun v => some ((RMap.get m k).getD v)) := by
  induction d generalizing m with
  | nil => simp [RMap.get]
  | cons kv d' ih =>
    obtain ⟨hmem, hnd⟩ := RMap.keysNodup_cons kv d' h
    rw [List.foldl_cons, ih _ hnd]
    by_cases h1 : kv.1 = k
    · have hd' : RMap.get d' k = none :=
        RMap.get_eq_none_of_forall_ne d' k (fun x hx => h1 ▸ hmem x hx)
      rw [hd', RMap.get, if_pos h1]
      cases hm : RMap.get m k with
      | some w => simp [h1, hm]
      | none => simp [hm, h1, RMap.get_set]
    · have step : RMap.get
          (if (RMap.get m kv.1).isNone then RMap.set m kv.1 kv.2 else m) k = RMap.get m k := by
        by_cases hm : (RMap.get m kv.1).isNone
        · simp [hm, RMap.get_set, h1]
        · simp [hm]
      rw [step, RMap.get, if_neg h1]

/-- Pointwise description of `Settings.reconcile`: keys unknown to the
defaults are dropped, keys of the defaults keep the file's value when the
file has one and get the default value otherwise. -/
theorem Settings.reconcile_get {β : Type _} (d m : List (String × β)) (k : String)
    (hd : RMap.keysNodup d) (hm : RMap.keysNodup m) :
    RMap.get (Settings.reconcile d m) k =
      (RMap.get d k).map (fun v => (RMap.get m k).getD v) := by
  rw [Settings.reconcile]
  have hdel := RMap.foldl_del_get
    ((m.filter (fun kv => (RMap.get d kv.1).isNone)).map Prod.fst) m k hm
  rw [RMap.foldl_ins_get _ _ _ hd, hdel]
  have hmemdel : k ∈ (m.filter (fun kv => (RMap.get d kv.1).isNone)).map Prod.fst ↔
      ((RMap.get m k).isSome ∧ (RMap.get d k).isNone) := by
    rw [List.mem_map]
    constructor
    · rintro ⟨x, hx, he⟩
      rw [List.mem_filter] at hx
      refine ⟨(RMap.get_isSome_iff_key_mem m k).2 ⟨x, hx.1, he⟩, ?_⟩
      have := hx.2
      rw [he] at this
      simpa using this
    · rintro ⟨hs, hn⟩
      obtain ⟨x, hx, he⟩ := (RMap.get_isSome_iff_key_mem m k).1 hs
      exact ⟨x, List.mem_filter.2 ⟨hx, by simp [he, hn]⟩, he⟩
  cases hdk : RMap.get d k with
  | some v =>
    have : ¬ (k ∈ (m.filter (fun kv => (RMap.get d kv.1).isNone)).map Prod.fst) := by
      rw [hmemdel, hdk]
      simp
    simp only [this, if_false]
    rfl
  | none =>
    by_cases hmk : (RMap.get m k).isSome
    · have : k ∈ (m.filter (fun kv => (RMap.get d kv.1).isNone)).map Prod.fst := by
        rw [hmemdel, hdk]
        simp [hmk]
      simp [this]
    · have h1 : ¬ (k ∈ (m.filter (fun kv => (RMap.get d kv.1).isNone)).map Prod.fst) := by
        rw [hmemdel]
        simp [hmk]
      have h2 : RMap.get m k = none := by
        cases hx : RMap.get m k with
        | some w => exact absurd (by simp [hx]) hmk
        | none => rfl
      simp [h1, h2]

theorem RMap.keysNodup_foldl_set {α : Type _} [DecidableEq α] {β : Type _}
    (l : List α) (v : β) (m : List (α × β)) (h : RMap.keysNodup m) :
    RMap.keysNodup (l.foldl (fun acc key => RMap.set acc key v) m) := by
  induction l generalizing m with
  | nil => exact h
  | cons x xs ih => exact ih _ (RMap.keysNodup_set m x v h)

theorem Settings.new_keysNodup (games : List String) (ktk stable : String) :
    RMap.keysNodup (Settings.new games ktk stable).paths ∧
    RMap.keysNodup (Settings.new games ktk stable).settings_string ∧
    RMap.keysNodup (Settings.new games ktk stable).settings_bool := by
  refine ⟨?_, ?_, ?_⟩
  · exact RMap.keysNodup_foldl_set games none _
      (RMap.keysNodup_set _ _ _ (RMap.keysNodup_set _ _ _ RMap.keysNodup_nil))
  · exact RMap.keysNodup_set _ _ _ (RMap.keysNodup_set _ _ _ (RMap.keysNodup_set _ _ _
      (RMap.keysNodup_set _ _ _ (RMap.keysNodup_set _ _ _ (RMap.keysNodup_set _ _ _
      (RMap.keysNodup_set _ _ _ (RMap.keysNodup_set _ _ _ RMap.keysNodup_nil)))))))
  · repeat apply RMap.keysNodup_set
    exact RMap.keysNodup_nil

attribute [irreducible] Settings.new

/-! ## Lemmas on the recent-files list update -/

theorem update_recent_files_list_erase (l : List String) (p : String) :
    (match l.findIdx? (fun x => x == p) with
      | some index => l.eraseIdx index
      | none => l) = l.erase p := by
  induction l with
  | nil => rfl
  | cons x xs ih =>
    by_cases h1 : x = p
    · subst h1
      simp [List.findIdx?_cons, List.erase_cons]
    · have hbeq : (x == p) = false := by simpa using h1
      rw [List.erase_cons, if_neg (by simpa using h1)]
      rw [List.findIdx?_cons, hbeq]
      simp only [Bool.false_eq_true, if_false, List.findIdx?_succ]
      rw [← ih]
      cases hfi : xs.findIdx? (fun x => x == p) with
      | none => rfl
      | some i => rfl

/-- The whole list transformation of `update_recent_files`: cons the new
path onto the previous list with its first occurrence of the path removed,
then keep the first 10 entries. -/
theorem update_recent_files_list_eq (l : List String) (p : String) :
    update_recent_files_list l p = (p :: l.erase p).take 10 := by
  rw [update_recent_files_list, update_recent_files_list_erase]
  simp

/-- C8 : without restriction on the previous list the claimed shape fails:
on the (hand-editable) stored list `["a", "a"]`, updating with path `"a"`
yields `["a", "a"]` again, which carries a second occurrence of the path
besides the leading one, so the stored list does not "contain no other
occurrence of path". -/
theorem update_recent_files_duplicate_counterexample :
    update_recent_files_list ["a", "a"] "a" = ["a", "a"] ∧
      ¬ ((update_recent_files_list ["a", "a"] "a").count "a" = 1) := by
  constructor
  · rfl
  · intro h
    rw [show update_recent_files_list ["a", "a"] "a" = ["a", "a"] from rfl] at h
    simp [List.count_cons] at h

/-- C8 (amended): `update_recent_files` stores
`(path :: previous.erase path).take 10`: the list starts with `path`, has
length at most 10, the surviving previous entries keep their relative order
(they are the previous list with the *first* occurrence of `path` removed,
truncated), and — provided `path` occurred at most once before, which is the
invariant the function itself maintains — `path` occurs exactly once. -/
theorem update_recent_files_list_spec (l : List String) (p : String)
    (h : l.count p ≤ 1) :
    update_recent_files_list l p = (p :: l.erase p).take 10 ∧
    (update_recent_files_list l p).head? = some p ∧
    (update_recent_files_list l p).length ≤ 10 ∧
    (update_recent_files_list l p).count p = 1 := by
  have heq := update_recent_files_list_eq l p
  have htake : (p :: l.erase p).take 10 = p :: (l.erase p).take 9 := rfl
  refine ⟨heq, ?_, ?_, ?_⟩
  · rw [heq, htake]
    rfl
  · rw [heq]
    exact le_trans (List.length_take_le 10 _) (le_refl 10)
  · rw [heq, htake, List.count_cons_self]
    have h0 : (l.erase p).count p = 0 := by
      have := List.count_erase_self p l
      omega
    have hle : ((l.erase p).take 9).count p ≤ (l.erase p).count p :=
      ((l.erase p).take_sublist 9).count_le p
    omega

/-- C7 : for a supported game, `Config::new` fails exactly when the schema
load fails, and on success returns the loaded schema together with the
arguments unchanged. -/
theorem config_new_schema_load {Schema Err : Type _}
    (games : List (String × GameInfo)) (load : SchemaLoader Schema Err)
    (game_selected : String) (settings : Settings) (verbosity_level : Nat)
    (game_info : GameInfo) (hsupp : RMap.get games game_selected = some game_info) :
    (∀ e : Err, Config.new games load game_selected settings verbosity_level =
        some (Except.error e) ↔ load game_info.schema = Except.error e) ∧
    (∀ s : Schema, load game_info.schema = Except.ok s →
      Config.new games load game_selected settings verbosity_level =
        some (Except.ok { game_selected := game_selected, schema := s,
                          settings := settings, verbosity_level := verbosity_level })) := by
  constructor
  · intro e
    rw [Config.new, hsupp]
    cases hl : load game_info.schema with
    | error e' => simp [hl, Except.error.injEq, eq_comm]
    | ok s => simp [hl]
  · intro s hl
    rw [Config.new, hsupp]
    simp [hl]

/-- Witness for `config_new_schema_load` at a concrete supported game and a
concrete loader, exercising both the success and the failure direction. -/
theorem config_new_schema_load_witness :
    Config.new [("three_kingdoms", ⟨"schema_3k.ron"⟩)]
        ((fun _ => Except.ok 7) : SchemaLoader Nat Unit) "three_kingdoms" ⟨[], [], []⟩ 2 =
      some (Except.ok { game_selected := "three_kingdoms", schema := 7,
                        settings := ⟨[], [], []⟩, verbosity_level := 2 }) :=
  (config_new_schema_load [("three_kingdoms", ⟨"schema_3k.ron"⟩)]
    ((fun _ => Except.ok 7) : SchemaLoader Nat Unit)
    "three_kingdoms" ⟨[], [], []⟩ 2 ⟨"schema_3k.ron"⟩ rfl).2 7 rfl

/-- Witness for `update_recent_files_list_spec` on a concrete previous list. -/
theorem update_recent_files_list_spec_witness :
    update_recent_files_list ["b", "a", "c"] "a" = ["a", "b", "c"] ∧
      (update_recent_files_list ["b", "a", "c"] "a").count "a" = 1 := by
  have h := update_recent_files_list_spec ["b", "a", "c"] "a" (by decide)
  exact ⟨by rw [h.1]; rfl, h.2.2.2⟩

/-- C10 : an unsupported game name makes `Config::new` panic (the `none`
result) through the partial map indexing, and an error return is only
reachable when the game name is a key of `SUPPORTED_GAMES`. -/
theorem config_new_unsupported_game_panics {Schema Err : Type _}
    (games : List (String × GameInfo)) (load : SchemaLoader Schema Err)
    (game_selected : String) (settings : Settings) (verbosity_level : Nat) :
    (RMap.get games game_selected = none →
      Config.new games load game_selected settings verbosity_level = none) ∧
    (∀ e : Err, Config.new games load game_selected settings verbosity_level =
        some (Except.error e) → (RMap.get games game_selected).isSome) := by
  constructor
  · intro h
    rw [Config.new, h]
  · intro e h
    cases hg : RMap.get games game_selected with
    | none =>
      rw [Config.new, hg] at h
      exact absurd h (by simp)
    | some gi => rfl

/-- Witness for `config_new_unsupported_game_panics`: with an empty supported
map, asking for any game name panics. -/
theorem config_new_unsupported_game_panics_witness :
    Config.new [] ((fun _ => Except.ok 0) : SchemaLoader Nat Unit)
      "not_a_game" ⟨[], [], []⟩ 0 = none :=
  (config_new_unsupported_game_panics [] ((fun _ => Except.ok 0) : SchemaLoader Nat Unit)
    "not_a_game" ⟨[], [], []⟩ 0).1 rfl

/-- C9 : `Settings::load` reconciles each of the three maps of a
successfully deserialized settings file against the defaults of
`Settings::new`: the result has exactly the defaults' key set, keeps the
file's value for keys the file knows and the default value otherwise. -/
theorem settings_load_reconciles (games : List String) (ktk stable : String)
    (file_settings : Settings) (k : String)
    (hp : RMap.keysNodup file_settings.paths)
    (hs : RMap.keysNodup file_settings.settings_string)
    (hb : RMap.keysNodup file_settings.settings_bool) :
    (RMap.get (Settings.load games ktk stable file_settings).paths k =
      (RMap.get (Settings.new games ktk stable).paths k).map
        (fun v => (RMap.get file_settings.paths k).getD v)) ∧
    (RMap.get (Settings.load games ktk stable file_settings).settings_string k =
      (RMap.get (Settings.new games ktk stable).settings_string k).map
        (fun v => (RMap.get file_settings.settings_string k).getD v)) ∧
    (RMap.get (Settings.load games ktk stable file_settings).settings_bool k =
      (RMap.get (Settings.new games ktk stable).settings_bool k).map
        (fun v => (RMap.get file_settings.settings_bool k).getD v)) ∧
    ((RMap.get (Settings.load games ktk stable file_settings).paths k).isSome =
      (RMap.get (Settings.new games ktk stable).paths k).isSome) ∧
    ((RMap.get (Settings.load games ktk stable file_settings).settings_string k).isSome =
      (RMap.get (Settings.new games ktk stable).settings_string k).isSome) ∧
    ((RMap.get (Settings.load games ktk stable file_settings).settings_bool k).isSome =
      (RMap.get (Settings.new games ktk stable).settings_bool k).isSome) := by
  obtain ⟨hdp, hds, hdb⟩ := Settings.new_keysNodup games ktk stable
  have hpth : (Settings.load games ktk stable file_settings).paths =
      Settings.reconcile (Settings.new games ktk stable).paths file_settings.paths := rfl
  have hstr : (Settings.load games ktk stable file_settings).settings_string =
      Settings.reconcile (Settings.new games ktk stable).settings_string
        file_settings.settings_string := rfl
  have hbol : (Settings.load games ktk stable file_settings).settings_bool =
      Settings.reconcile (Settings.new games ktk stable).settings_bool
        file_settings.settings_bool := rfl
  have hsm : ∀ {γ δ : Type} (o : Option γ) (f : γ → δ), (o.map f).isSome = o.isSome := by
    intro γ δ o f
    cases o <;> rfl
  have e1 := (congrArg (fun m => RMap.get m k) hpth).trans
    (Settings.reconcile_get (Settings.new games ktk stable).paths file_settings.paths k hdp hp)
  have e2 := (congrArg (fun m => RMap.get m k) hstr).trans
    (Settings.reconcile_get (Settings.new games ktk stable).settings_string
      file_settings.settings_string k hds hs)
  have e3 := (congrArg (fun m => RMap.get m k) hbol).trans
    (Settings.reconcile_get (Settings.new games ktk stable).settings_bool
      file_settings.settings_bool k hdb hb)
  exact ⟨e1, e2, e3,
    (congrArg Option.isSome e1).trans (hsm _ _),
    (congrArg Option.isSome e2).trans (hsm _ _),
    (congrArg Option.isSome e3).trans (hsm _ _)⟩

/-- Witness for `settings_load_reconciles` on a concrete deserialized file:
a key the file sets keeps the file's value, and the checked key set matches
the defaults. -/
theorem settings_load_reconciles_witness :
    RMap.get (Settings.load ["troy"] "three_kingdoms" "stable"
        ⟨[("old_game", none)], [("language", "French_fr")], []⟩).settings_string "language" =
      some "French_fr" := by
  have h := (settings_load_reconciles ["troy"] "three_kingdoms" "stable"
    ⟨[("old_game", none)], [("language", "French_fr")], []⟩ "language"
    (by decide) (by decide) (by decide)).2.1
  rw [h]
  with_unfolding_all decide

/-! ## `rpfm_ui/src/views/table/utils.rs`: reference data from open table views -/

/-- The per-reference-column lookup table (`DependencyData` of
`rpfm_lib::packedfile::table`, as used by `get_reference_data` and
`setup_item_delegates`): its `data` maps a key value to its composite
lookup string. -/
structure DependencyData where
  data : List (String × String)
deriving DecidableEq

/-- A `QStandardItemModel` of an open table view, as far as the reference
scan reads it: the horizontal header strings and the `text()` of every item.
`header_data`/`item(..).text()` out of range give the empty string. -/
structure TableModel where
  headers : List String
  rows : List (List String)
deriving DecidableEq

/-- `table_model.header_data_2a(ci, Horizontal)` as a string. -/
def TableModel.header (m : TableModel) (ci : Nat) : String :=
  m.headers.getD ci ""

/-- `table_model.item_2a(row, ci).text()`. -/
def TableModel.cell (m : TableModel) (row ci : Nat) : String :=
  (m.rows.getD row []).getD ci ""

/-- `clean_column_names`: capitalize the first character and every character
following an underscore, turning the underscores into spaces.  (Rust's
`char::to_uppercase` can expand one character into several; the model uses
Lean's one-character `Char.toUpper`, which agrees on ASCII field names.) -/
def clean_column_names (field_name : String) : String :=
  (field_name.data.foldl (fun (acc : String × Bool) character =>
    if acc.1.isEmpty || acc.2 then (acc.1.push character.toUpper, false)
    else if character = '_' then (acc.1.push ' ', true)
    else (acc.1.push character, acc.2)) ("", false)).1

/-- The `lookup_value` computed for one row inside `get_reference_data`:
with configured lookup columns, the texts of this row in every table column
whose header is one of the configured names, joined with `" "`, scanning
the table columns in order; without configured columns, the empty string. -/
def lookup_value (m : TableModel) (lookup : Option (List String)) (row : Nat) : String :=
  match lookup with
  | some columns =>
    let data := ((List.range m.headers.length).filter
      (fun x => columns.contains (m.header x))).map (fun x => m.cell row x)
    " ".intercalate data
  | none => ""

/-- The inner row loop of `get_reference_data`: for every row of the model,
insert `item(row, ci).text() ↦ lookup_value(row)` into the per-column map. -/
def scan_rows (m : TableModel) (ci : Nat) (lookup : Option (List String))
    (acc : List (String × String)) : List (String × String) :=
  (List.range m.rows.length).foldl
    (fun acc row => RMap.set acc (m.cell row ci) (lookup_value m lookup row)) acc

/-- The column loop of `get_reference_data`: every table column whose header
equals the (cleaned) referenced column name has its rows scanned. -/
def scan_columns (m : TableModel) (column : String) (lookup : Option (List String))
    (acc : List (String × String)) : List (String × String) :=
  (List.range m.headers.length).foldl
    (fun acc ci => if m.header ci = column then scan_rows m ci lookup acc else acc) acc

/-- Rust's `str::to_lowercase` as used on the path segments (ASCII case
mapping; the paths compared against are the ASCII literals `"db"` and
`"<table>_tables"`).  Defined over the character list so that it reduces by
computation. -/
def rust_to_lowercase (s : String) : String :=
  ⟨s.data.map Char.toLower⟩

/-- One open `PackedFileView`: its path, and `some` model when its view is
`ViewType::Internal(View::Table(..))` (`none` for any other view kind). -/
structure PackedFileView where
  path : List String
  view : Option TableModel

/-- The per-reference-column map `dependency_data_visual_column` built by
`get_reference_data` from the currently open packed-file views: every open
view whose path is `db/<table>_tables/<file>` (case-insensitive on the two
fixed segments) and which is a table view contributes its scanned rows. -/
def visual_column_data (open_packedfiles : List PackedFileView)
    (table column : String) (lookup : Option (List String)) : List (String × String) :=
  open_packedfiles.foldl (fun acc pfv =>
    if pfv.path.length = 3 ∧ rust_to_lowercase (pfv.path.getD 0 "") = "db" ∧
        rust_to_lowercase (pfv.path.getD 1 "") = table ++ "_tables" then
      match pfv.view with
      | some m => scan_columns m (clean_column_names column) lookup acc
      | none => acc
    else acc) []

/-- The body of the final loop of `get_reference_data` for one index of
`reference_data`: when both the open-view map and the backend map carry the
index, the open-view entries are `BTreeMap::append`ed into the backend
column data (open entries overwrite backend entries at equal keys);
otherwise nothing happens. -/
def merge_visual_column (dependency_data_visual : List (Int × List (String × String)))
    (dep : List (Int × DependencyData))
    (entry : Int × String × String × Option (List String)) :
    List (Int × DependencyData) :=
  match RMap.get dependency_data_visual entry.1, RMap.get dep entry.1 with
  | some column_data_visual, some column_data =>
    RMap.set dep entry.1 ⟨RMap.append column_data.data column_data_visual⟩
  | _, _ => dep

/-- `get_reference_data` (the part after the backend round-trip is issued):
`reference_data` is `definition.get_reference_data()` — per referenced field
index its target table, target column and optional lookup columns —,
`open_packedfiles` is `UI_STATE.get_open_packedfiles()`, and `response` is
the backend's `BTreeMapI32DependencyData` answer (or its error).  The open
views' per-column maps are merged into the backend maps with
`BTreeMap::append`, whose entries overwrite the backend entries at equal
keys. -/
def get_reference_data {ε : Type _}
    (reference_data : List (Int × String × String × Option (List String)))
    (open_packedfiles : List PackedFileView)
    (response : Except ε (List (Int × DependencyData))) :
    Except ε (List (Int × DependencyData)) :=
  let dependency_data_visual := reference_data.foldl
    (fun acc entry =>
      RMap.set acc entry.1 (visual_column_data open_packedfiles entry.2.1 entry.2.2.1 entry.2.2.2))
    []
  match response with
  | Except.error e => Except.error e
  | Except.ok dependency_data =>
    Except.ok (reference_data.foldl (merge_visual_column dependency_data_visual)
      dependency_data)

/-! ## Last-wins row scanning (C4) -/

/-- The last row index below `n` whose key-column text equals `k`. -/
def lastRowWith (m : TableModel) (ci : Nat) (k : String) : Nat → Option Nat
  | 0 => none
  | n + 1 => if m.cell n ci = k then some n else lastRowWith m ci k n

theorem scan_rows_foldl_get (m : TableModel) (ci : Nat) (lookup : Option (List String))
    (k : String) (n : Nat) (acc : List (String × String)) :
    RMap.get ((List.range n).foldl
        (fun acc row => RMap.set acc (m.cell row ci) (lookup_value m lookup row)) acc) k =
      (lastRowWith m ci k n).elim (RMap.get acc k) (fun r => some (lookup_value m lookup r)) := by
  induction n with
  | zero => rfl
  | succ n ih =>
    rw [List.range_succ, List.foldl_append, List.foldl_cons, List.foldl_nil,
      RMap.get_set, lastRowWith]
    by_cases h1 : m.cell n ci = k
    · simp [h1]
    · simp only [h1, if_false, if_neg h1]
      exact ih

theorem scan_rows_get (m : TableModel) (ci : Nat) (lookup : Option (List String))
    (k : String) (acc : List (String × String)) :
    RMap.get (scan_rows m ci lookup acc) k =
      (lastRowWith m ci k m.rows.length).elim (RMap.get acc k)
        (fun r => some (lookup_value m lookup r)) :=
  scan_rows_foldl_get m ci lookup k m.rows.length acc

theorem lastRowWith_eq_some (m : TableModel) (ci : Nat) (k : String) (j n : Nat)
    (hj : j < n) (hk : m.cell j ci = k)
    (hlast : ∀ r, j < r → r < n → m.cell r ci ≠ k) :
    lastRowWith m ci k n = some j := by
  induction n with
  | zero => omega
  | succ n ih =>
    by_cases h1 : j = n
    · subst h1
      rw [lastRowWith, if_pos hk]
    · have hjn : j < n := by omega
      have hcn : m.cell n ci ≠ k := hlast n hjn (by omega)
      rw [lastRowWith, if_neg hcn]
      exact ih hjn (fun r h1 h2 => hlast r h1 (by omega))

theorem foldl_cols_no_match (m : TableModel) (column : String)
    (lookup : Option (List String)) (cis : List Nat) (acc : List (String × String))
    (h : ∀ ci ∈ cis, m.header ci ≠ column) :
    cis.foldl (fun acc ci => if m.header ci = column then scan_rows m ci lookup acc else acc)
      acc = acc := by
  induction cis with
  | nil => rfl
  | cons c0 cs ih =>
    rw [List.foldl_cons, if_neg (h c0 (by simp))]
    exact ih (fun ci hci => h ci (List.mem_cons_of_mem _ hci))

theorem foldl_cols_single (m : TableModel) (column : String)
    (lookup : Option (List String)) (ci : Nat) (cis : List Nat)
    (hnd : cis.Nodup) (hci : ci ∈ cis) (hdr : m.header ci = column)
    (hothers : ∀ cj ∈ cis, cj ≠ ci → m.header cj ≠ column) :
    ∀ acc, cis.foldl
        (fun acc ci => if m.header ci = column then scan_rows m ci lookup acc else acc) acc =
      scan_rows m ci lookup acc := by
  induction cis with
  | nil => exact absurd hci (by simp)
  | cons c0 cs ih =>
    intro acc
    obtain ⟨hc0, hndcs⟩ := List.nodup_cons.1 hnd
    by_cases h1 : c0 = ci
    · subst h1
      rw [List.foldl_cons, if_pos hdr]
      exact foldl_cols_no_match m column lookup cs _
        (fun cj hcj => hothers cj (List.mem_cons_of_mem _ hcj)
          (fun he => hc0 (he ▸ hcj)))
    · have hcics : ci ∈ cs := by
        rcases List.mem_cons.1 hci with h | h
        · exact absurd h.symm h1
        · exact h
      rw [List.foldl_cons, if_neg (hothers c0 (by simp) h1)]
      exact ih hndcs hcics
        (fun cj hcj hne => hothers cj (List.mem_cons_of_mem _ hcj) hne) acc

theorem scan_columns_eq_scan_rows (m : TableModel) (column : String)
    (lookup : Option (List String)) (ci : Nat) (acc : List (String × String))
    (hci : ci < m.headers.length) (hdr : m.header ci = column)
    (huniq : ∀ cj, cj < m.headers.length → cj ≠ ci → m.header cj ≠ column) :
    scan_columns m column lookup acc = scan_rows m ci lookup acc :=
  foldl_cols_single m column lookup ci (List.range m.headers.length)
    (List.nodup_range _) (List.mem_range.2 hci) hdr
    (fun cj hcj hne => huniq cj (List.mem_range.1 hcj) hne) acc

/-- C4 : when the scanned open table carries the referenced column once and
several rows share the key value `k` in it, the per-column map built by
`get_reference_data` holds the lookup string of the *last* such row in scan
order — the earlier rows' entries are overwritten and no error is raised
(the scan is total). -/
theorem scan_duplicate_keys_last_wins (m : TableModel) (column : String)
    (lookup : Option (List String)) (ci i j : Nat) (k : String)
    (hci : ci < m.headers.length) (hdr : m.header ci = column)
    (huniq : ∀ cj, cj < m.headers.length → cj ≠ ci → m.header cj ≠ column)
    (hij : i < j) (hj : j < m.rows.length)
    (hki : m.cell i ci = k) (hkj : m.cell j ci = k)
    (hlast : ∀ r, j < r → r < m.rows.length → m.cell r ci ≠ k) :
    RMap.get (scan_columns m column lookup []) k = some (lookup_value m lookup j) := by
  rw [scan_columns_eq_scan_rows m column lookup ci [] hci hdr huniq, scan_rows_get,
    lastRowWith_eq_some m ci k j m.rows.length hj hkj hlast]
  rfl

/-- Witness for `scan_duplicate_keys_last_wins`: two rows keyed `"k"`; the
map ends with the second row's lookup string `"bar"`. -/
theorem scan_duplicate_keys_last_wins_witness :
    RMap.get (scan_columns ⟨["Key", "Name"], [["k", "foo"], ["k", "bar"]]⟩
        "Key" (some ["Name"]) []) "k" = some "bar" := by
  have h := scan_duplicate_keys_last_wins ⟨["Key", "Name"], [["k", "foo"], ["k", "bar"]]⟩
    "Key" (some ["Name"]) 0 0 1 "k" (by decide) rfl
    (by
      intro cj h1 h2
      have h1' : cj < 2 := h1
      have : cj = 1 := by omega
      subst this
      decide)
    (by decide) (by decide) rfl rfl
    (by
      intro r h1 h2
      have h2' : r < 2 := h2
      omega)
  rw [h]
  rfl

/-! ## Composite lookup strings (C5) -/

/-- The composite lookup string as the claim words it: the row's values in
the configured lookup columns, joined with single spaces, *in the order the
lookup columns are configured* (a configured name that is no header of the
table contributes nothing; a configured name resolves to the first table
column carrying it). -/
def lookup_value_configured_order (m : TableModel) (columns : List String)
    (row : Nat) : String :=
  " ".intercalate ((columns.filter (fun c => m.headers.contains c)).map
    (fun c => m.cell row (m.headers.indexOf c)))

/-- The composite lookup string as the code computes it, worded
independently of the scan: pair every header with this row's cell in that
column, keep the pairs whose header is a configured lookup column — in
table-column order — and join the kept cells with single spaces. -/
def lookup_value_table_order (m : TableModel) (columns : List String)
    (row : Nat) : String :=
  " ".intercalate (((m.headers.zip ((List.range m.headers.length).map (m.cell row))).filter
    (fun p => columns.contains p.1)).map Prod.snd)

/-- C5 : the code's composite lookup string joins the row's values in table
column order, not in the configured order: with headers `a, b` and lookup
columns configured as `b, a`, the code yields `"va vb"` while the claim's
configured-order reading yields `"vb va"`. -/
theorem lookup_value_configured_order_counterexample :
    lookup_value ⟨["a", "b", "key"], [["va", "vb", "kk"]]⟩ (some ["b", "a"]) 0 = "va vb" ∧
    lookup_value_configured_order ⟨["a", "b", "key"], [["va", "vb", "kk"]]⟩ ["b", "a"] 0 =
      "vb va" ∧
    lookup_value ⟨["a", "b", "key"], [["va", "vb", "kk"]]⟩ (some ["b", "a"]) 0 ≠
      lookup_value_configured_order ⟨["a", "b", "key"], [["va", "vb", "kk"]]⟩ ["b", "a"] 0 := by
  exact ⟨rfl, rfl, by decide⟩

theorem map_getD_range {γ : Type _} (l : List γ) (d : γ) :
    (List.range l.length).map (fun i => l.getD i d) = l := by
  induction l with
  | nil => rfl
  | cons x xs ih =>
    rw [List.length_cons, List.range_succ_eq_map, List.map_cons, List.map_map]
    exact congrArg (x :: ·) ih

theorem filter_map_eq_zip_filter {γ δ : Type _} (xs : List γ) (f : γ → String)
    (g : γ → δ) (P : String → Bool) :
    ((xs.filter (fun x => P (f x))).map g) =
      (((xs.map f).zip (xs.map g)).filter (fun p => P p.1)).map Prod.snd := by
  induction xs with
  | nil => rfl
  | cons x xs ih =>
    rw [List.map_cons, List.map_cons, List.zip_cons_cons, List.filter_cons, List.filter_cons]
    by_cases h1 : P (f x)
    · simp only [h1, if_true, List.map_cons]
      exact congrArg (g x :: ·) ih
    · simp only [h1, if_false]
      exact ih

/-- C5 (amended): with configured lookup columns the composite lookup string
is the space-joined list of the row's values in those table columns whose
header is one of the configured names, taken in ascending table-column
order (not in configured order); with no configured lookup columns it is
empty. -/
theorem lookup_value_spec (m : TableModel) (columns : List String) (row : Nat) :
    lookup_value m (some columns) row = lookup_value_table_order m columns row ∧
    lookup_value m none row = "" := by
  constructor
  · rw [lookup_value, lookup_value_table_order]
    have hz := filter_map_eq_zip_filter (List.range m.headers.length)
      (fun i => m.headers.getD i "") (m.cell row) (fun s => columns.contains s)
    have hh : (List.range m.headers.length).map (fun i => m.headers.getD i "") = m.headers :=
      map_getD_range m.headers ""
    rw [show (fun x => columns.contains (m.header x)) =
        (fun x => columns.contains (m.headers.getD x "")) from rfl]
    rw [show (fun x => m.cell row x) = m.cell row from rfl]
    rw [hz, hh]
  · rfl

/-! ## Open-table precedence in `get_reference_data` (C1) -/

theorem RMap.get_foldl_set_ne_all {α : Type _} [DecidableEq α] {β γ : Type _}
    (l : List γ) (κ : γ → α) (f : γ → β) (m0 : List (α × β)) (k : α)
    (h : ∀ x ∈ l, κ x ≠ k) :
    RMap.get (l.foldl (fun acc x => RMap.set acc (κ x) (f x)) m0) k = RMap.get m0 k := by
  induction l generalizing m0 with
  | nil => rfl
  | cons x xs ih =>
    rw [List.foldl_cons, ih _ (fun y hy => h y (List.mem_cons_of_mem _ hy)),
      RMap.get_set, if_neg (h x (by simp))]

theorem RMap.get_foldl_set_mem {α : Type _} [DecidableEq α] {β γ : Type _}
    (l : List γ) (κ : γ → α) (f : γ → β) (m0 : List (α × β))
    (hnd : (l.map κ).Nodup) (e : γ) (he : e ∈ l) :
    RMap.get (l.foldl (fun acc x => RMap.set acc (κ x) (f x)) m0) (κ e) = some (f e) := by
  induction l generalizing m0 with
  | nil => exact absurd he (by simp)
  | cons x xs ih =>
    rw [List.map_cons, List.nodup_cons] at hnd
    rcases List.mem_cons.1 he with h1 | h1
    · subst h1
      rw [List.foldl_cons,
        RMap.get_foldl_set_ne_all xs κ f _ (κ e)
          (fun y hy hee => hnd.1 (hee ▸ List.mem_map.2 ⟨y, hy, rfl⟩)),
        RMap.get_set, if_pos rfl]
    · rw [List.foldl_cons]
      exact ih _ hnd.2 h1

theorem RMap.keysNodup_foldl_set_fn {α : Type _} [DecidableEq α] {β γ : Type _}
    (l : List γ) (κ : γ → α) (f : γ → β) (m0 : List (α × β)) (h : RMap.keysNodup m0) :
    RMap.keysNodup (l.foldl (fun acc x => RMap.set acc (κ x) (f x)) m0) := by
  induction l generalizing m0 with
  | nil => exact h
  | cons x xs ih => exact ih _ (RMap.keysNodup_set m0 (κ x) (f x) h)

theorem scan_rows_keysNodup (m : TableModel) (ci : Nat) (lookup : Option (List String))
    (acc : List (String × String)) (h : RMap.keysNodup acc) :
    RMap.keysNodup (scan_rows m ci lookup acc) :=
  RMap.keysNodup_foldl_set_fn (List.range m.rows.length)
    (fun row => m.cell row ci) (fun row => lookup_value m lookup row) acc h

theorem scan_columns_keysNodup (m : TableModel) (column : String)
    (lookup : Option (List String)) (acc : List (String × String))
    (h : RMap.keysNodup acc) :
    RMap.keysNodup (scan_columns m column lookup acc) := by
  rw [scan_columns]
  generalize List.range m.headers.length = cis
  induction cis generalizing acc with
  | nil => exact h
  | cons c0 cs ih =>
    rw [List.foldl_cons]
    by_cases h1 : m.header c0 = column
    · rw [if_pos h1]
      exact ih _ (scan_rows_keysNodup m c0 lookup acc h)
    · rw [if_neg h1]
      exact ih _ h

theorem visual_column_data_keysNodup (open_packedfiles : List PackedFileView)
    (table column : String) (lookup : Option (List String)) :
    RMap.keysNodup (visual_column_data open_packedfiles table column lookup) := by
  rw [visual_column_data]
  generalize hacc : ([] : List (String × String)) = acc
  have h : RMap.keysNodup acc := hacc ▸ RMap.keysNodup_nil
  clear hacc
  induction open_packedfiles generalizing acc with
  | nil => exact h
  | cons pfv rest ih =>
    rw [List.foldl_cons]
    by_cases h1 : pfv.path.length = 3 ∧ rust_to_lowercase (pfv.path.getD 0 "") = "db" ∧
        rust_to_lowercase (pfv.path.getD 1 "") = table ++ "_tables"
    · rw [if_pos h1]
      cases hv : pfv.view with
      | none => exact ih _ h
      | some mm => exact ih _ (scan_columns_keysNodup mm (clean_column_names column) lookup acc h)
    · rw [if_neg h1]
      exact ih _ h

theorem merge_visual_column_get_ne
    (visual : List (Int × List (String × String))) (dep : List (Int × DependencyData))
    (entry : Int × String × String × Option (List String)) (i : Int) (h : entry.1 ≠ i) :
    RMap.get (merge_visual_column visual dep entry) i = RMap.get dep i := by
  rw [merge_visual_column]
  cases RMap.get visual entry.1 with
  | none => rfl
  | some vcol =>
    cases RMap.get dep entry.1 with
    | none => rfl
    | some cd => rw [RMap.get_set, if_neg h]

theorem foldl_merge_get_ne (visual : List (Int × List (String × String)))
    (l : List (Int × String × String × Option (List String)))
    (dep : List (Int × DependencyData)) (i : Int) (h : ∀ x ∈ l, x.1 ≠ i) :
    RMap.get (l.foldl (merge_visual_column visual) dep) i = RMap.get dep i := by
  induction l generalizing dep with
  | nil => rfl
  | cons x xs ih =>
    rw [List.foldl_cons, ih _ (fun y hy => h y (List.mem_cons_of_mem _ hy)),
      merge_visual_column_get_ne visual dep x i (h x (by simp))]

theorem foldl_merge_get_mem (visual : List (Int × List (String × String)))
    (l : List (Int × String × String × Option (List String)))
    (dep : List (Int × DependencyData))
    (e : Int × String × String × Option (List String)) (he : e ∈ l)
    (hnd : (l.map Prod.fst).Nodup)
    (vcol : List (String × String)) (cd : DependencyData)
    (hv : RMap.get visual e.1 = some vcol) (hd : RMap.get dep e.1 = some cd) :
    RMap.get (l.foldl (merge_visual_column visual) dep) e.1 =
      some ⟨RMap.append cd.data vcol⟩ := by
  induction l generalizing dep with
  | nil => exact absurd he (by simp)
  | cons x xs ih =>
    rw [List.map_cons, List.nodup_cons] at hnd
    rcases List.mem_cons.1 he with h1 | h1
    · subst h1
      rw [List.foldl_cons,
        foldl_merge_get_ne visual xs _ e.1
          (fun y hy hee => hnd.1 (hee ▸ List.mem_map.2 ⟨y, hy, rfl⟩))]
      rw [merge_visual_column, hv, hd, RMap.get_set, if_pos rfl]
    · have hne : x.1 ≠ e.1 := by
        intro hee
        exact hnd.1 (hee ▸ List.mem_map.2 ⟨e, h1, rfl⟩)
      rw [List.foldl_cons]
      exact ih _ h1 hnd.2 ((merge_visual_column_get_ne visual dep x e.1 hne).trans hd)

/-- C1 : open-table precedence.  When the backend response carries a
dependency map for a reference field index whose data has key `k`, and the
scan of the currently open table views contributes key `k` with lookup `v`
for that same field, the map returned by `get_reference_data` holds `v` —
the open-table value — at `k`, not the backend value. -/
theorem get_reference_data_open_table_precedence {ε : Type _}
    (reference_data : List (Int × String × String × Option (List String)))
    (open_packedfiles : List PackedFileView)
    (backend : List (Int × DependencyData))
    (i : Int) (t c : String) (l : Option (List String)) (k v : String) (cd : DependencyData)
    (hnd : (reference_data.map Prod.fst).Nodup)
    (hmem : (i, t, c, l) ∈ reference_data)
    (hbk : RMap.get backend i = some cd)
    (hbkk : (RMap.get cd.data k).isSome)
    (hvk : RMap.get (visual_column_data open_packedfiles t c l) k = some v) :
    ∃ result,
      get_reference_data reference_data open_packedfiles
          (Except.ok backend : Except ε (List (Int × DependencyData))) =
        Except.ok result ∧
      ∃ cd2, RMap.get result i = some cd2 ∧ RMap.get cd2.data k = some v := by
  have hv : RMap.get (reference_data.foldl
      (fun acc entry => RMap.set acc entry.1
        (visual_column_data open_packedfiles entry.2.1 entry.2.2.1 entry.2.2.2)) []) i =
      some (visual_column_data open_packedfiles t c l) :=
    RMap.get_foldl_set_mem reference_data (fun entry => entry.1)
      (fun entry => visual_column_data open_packedfiles entry.2.1 entry.2.2.1 entry.2.2.2)
      [] hnd (i, t, c, l) hmem
  refine ⟨_, rfl,
    ⟨RMap.append cd.data (visual_column_data open_packedfiles t c l)⟩, ?_, ?_⟩
  · exact foldl_merge_get_mem _ reference_data backend (i, t, c, l) hmem hnd
      (visual_column_data open_packedfiles t c l) cd hv hbk
  · show RMap.get (RMap.append cd.data (visual_column_data open_packedfiles t c l)) k = some v
    rw [RMap.get_append,
      RMap.lastGet_eq_get _ _ (visual_column_data_keysNodup open_packedfiles t c l), hvk]
    rfl

/-- Witness for `get_reference_data_open_table_precedence`: the backend knows
key `"K"` with lookup `"Foo"`, the open copy of the same table was edited to
`"Bar"`; the merged reference data returns `"Bar"`. -/
theorem get_reference_data_open_table_precedence_witness :
    ∃ result,
      get_reference_data [((0 : Int), "units", "key", some ["Name"])]
          [⟨["db", "units_tables", "data"], some ⟨["Key", "Name"], [["K", "Bar"]]⟩⟩]
          (Except.ok [((0 : Int), ⟨[("K", "Foo")]⟩)] :
            Except Unit (List (Int × DependencyData))) =
        Except.ok result ∧
      ∃ cd2, RMap.get result 0 = some cd2 ∧ RMap.get cd2.data "K" = some "Bar" :=
  get_reference_data_open_table_precedence
    [((0 : Int), "units", "key", some ["Name"])]
    [⟨["db", "units_tables", "data"], some ⟨["Key", "Name"], [["K", "Bar"]]⟩⟩]
    [((0 : Int), ⟨[("K", "Foo")]⟩)] 0 "units" "key" (some ["Name"]) "K" "Bar"
    ⟨[("K", "Foo")]⟩ (by decide) (by decide) (by decide) (by decide) (by decide)

/-! ## The schema data model (`rpfm_lib::schema`, shapes as consumed by the
sources at hand) -/

mutual

/-- `FieldType`: the closed set of field types; the sequence variants embed
a full nested `Definition`. -/
inductive FieldType where
  | boolean : FieldType
  | f32 : FieldType
  | i16 : FieldType
  | i32 : FieldType
  | i64 : FieldType
  | stringU8 : FieldType
  | stringU16 : FieldType
  | optionalStringU8 : FieldType
  | optionalStringU16 : FieldType
  | sequenceU16 (definition : Definition) : FieldType
  | sequenceU32 (definition : Definition) : FieldType

/-- `Field`: the parts of a schema field read by the table-view utilities:
name, type, key flag, `ca_order` (-1 when absent) and default value. -/
inductive Field where
  | mk (name : String) (field_type : FieldType) (is_key : Bool) (ca_order : Int)
      (default_value : Option String) : Field

/-- `Definition`: a versioned ordered field list. -/
inductive Definition where
  | mk (version : Int) (fields : List Field) : Definition

end

def Field.get_name : Field → String
  | .mk n _ _ _ _ => n

def Field.get_ref_field_type : Field → FieldType
  | .mk _ t _ _ _ => t

def Field.get_is_key : Field → Bool
  | .mk _ _ k _ _ => k

def Field.get_ca_order : Field → Int
  | .mk _ _ _ o _ => o

def Field.get_default_value : Field → Option String
  | .mk _ _ _ _ d => d

/-- `Definition::get_fields_processed`: the field list the views work on
(the processing — bitfield splitting — happens in `rpfm_lib::schema`, not in
the sources at hand; the views treat its result as the definition's ordered
field list, which is how it is modelled). -/
def Definition.get_fields_processed : Definition → List Field
  | .mk _ fs => fs

/-! ## Rust's stable sort and `get_fields_sorted` (C6) -/

/-- `core::slice::sort::insert_head`: insert `x` in front of the sorted list
`l`, shifting it right past every element that `is_less` than it. -/
def insert_head {γ : Type _} (lt : γ → γ → Bool) (x : γ) : List γ → List γ
  | [] => [x]
  | y :: ys => if lt y x then y :: insert_head lt x ys else x :: y :: ys

/-- Rust's stable `sort_by` as it executes on short slices: `merge_sort`
runs a pure insertion sort for slices of at most 20 elements, calling
`insert_head` on every suffix from right to left — which is this fold.  (On
longer slices Rust switches to merges of sorted runs; with a comparator
that is not a total order — the case of interest below — Rust only promises
*some* permutation, and the merge path preserves the same adjacent-order
invariant proved here.) -/
def rust_sort_by {γ : Type _} (lt : γ → γ → Bool) : List γ → List γ
  | [] => []
  | x :: xs => insert_head lt x (rust_sort_by lt xs)

/-- `i16::cmp`. -/
def int_cmp (a b : Int) : Ordering :=
  if a < b then Ordering.lt else if a = b then Ordering.eq else Ordering.gt

/-- The comparator closure inside `get_fields_sorted`, including its read of
the `tables_use_old_column_order` setting (passed in as `old`). -/
def cmp_fields (old : Bool) (a b : Field) : Ordering :=
  if old then
    if a.get_is_key && b.get_is_key then Ordering.eq
    else if a.get_is_key && !b.get_is_key then Ordering.lt
    else if !a.get_is_key && b.get_is_key then Ordering.gt
    else Ordering.eq
  else if a.get_ca_order = -1 ∨ b.get_ca_order = -1 then Ordering.eq
  else int_cmp a.get_ca_order b.get_ca_order

/-- `get_fields_sorted`: copy the processed fields and sort them with the
comparator (Rust's `sort_by` uses `compare(a, b) == Less` as its
`is_less`). -/
def get_fields_sorted (tables_use_old_column_order : Bool)
    (table_definition : Definition) : List Field :=
  rust_sort_by (fun a b => cmp_fields tables_use_old_column_order a b == Ordering.lt)
    table_definition.get_fields_processed

theorem insert_head_perm {γ : Type _} (lt : γ → γ → Bool) (x : γ) (l : List γ) :
    (insert_head lt x l).Perm (x :: l) := by
  induction l with
  | nil => exact List.Perm.refl _
  | cons y ys ih =>
    rw [insert_head]
    by_cases h1 : lt y x = true
    · rw [if_pos h1]
      exact ((ih.cons y).trans (List.Perm.swap x y ys))
    · rw [if_neg h1]

theorem rust_sort_by_perm {γ : Type _} (lt : γ → γ → Bool) (l : List γ) :
    (rust_sort_by lt l).Perm l := by
  induction l with
  | nil => exact List.Perm.refl _
  | cons x xs ih =>
    rw [rust_sort_by]
    exact (insert_head_perm lt x (rust_sort_by lt xs)).trans (ih.cons x)

theorem insert_head_chain {γ : Type _} (lt : γ → γ → Bool)
    (hasym : ∀ a b, lt a b = true → lt b a = false) (x : γ) (l : List γ)
    (h : List.Chain' (fun a b => lt b a = false) l) :
    List.Chain' (fun a b => lt b a = false) (insert_head lt x l) := by
  induction l with
  | nil => simp [insert_head]
  | cons y ys ih =>
    rw [insert_head]
    by_cases h1 : lt y x = true
    · rw [if_pos h1]
      refine List.chain'_cons'.2 ⟨?_, ih h.tail⟩
      intro b hb
      cases ys with
      | nil =>
        rw [show insert_head lt x [] = [x] from rfl] at hb
        simp only [List.head?_cons, Option.mem_def, Option.some.injEq] at hb
        rw [← hb]
        exact hasym y x h1
      | cons z zs =>
        rw [insert_head] at hb
        by_cases h2 : lt z x = true
        · rw [if_pos h2] at hb
          simp only [List.head?_cons, Option.mem_def, Option.some.injEq] at hb
          rw [← hb]
          exact (List.chain'_cons.1 h).1
        · rw [if_neg h2] at hb
          simp only [List.head?_cons, Option.mem_def, Option.some.injEq] at hb
          rw [← hb]
          exact hasym y x h1
    · rw [if_neg h1]
      exact List.chain'_cons.2 ⟨Bool.not_eq_true _ ▸ h1, h⟩

theorem rust_sort_by_chain {γ : Type _} (lt : γ → γ → Bool)
    (hasym : ∀ a b, lt a b = true → lt b a = false) (l : List γ) :
    List.Chain' (fun a b => lt b a = false) (rust_sort_by lt l) := by
  induction l with
  | nil => simp [rust_sort_by]
  | cons x xs ih => exact insert_head_chain lt hasym x _ ih

theorem cmp_fields_asymm (a b : Field)
    (h : (cmp_fields false a b == Ordering.lt) = true) :
    (cmp_fields false b a == Ordering.lt) = false := by
  rw [cmp_fields, if_neg (by simp)] at h
  rw [cmp_fields, if_neg (by simp)]
  by_cases h1 : a.get_ca_order = -1 ∨ b.get_ca_order = -1
  · rw [if_pos h1] at h
    exact absurd h (by decide)
  · rw [if_neg h1] at h
    rw [if_neg (fun hh => h1 (Or.symm hh))]
    rw [int_cmp] at h
    have hlt : a.get_ca_order < b.get_ca_order := by
      by_cases h2 : a.get_ca_order < b.get_ca_order
      · exact h2
      · rw [if_neg h2] at h
        by_cases h3 : a.get_ca_order = b.get_ca_order
        · rw [if_pos h3] at h
          exact absurd h (by decide)
        · rw [if_neg h3] at h
          exact absurd h (by decide)
    rw [int_cmp, if_neg (by omega), if_neg (by omega)]
    decide

/-- The C6 claim as stated: any two positions holding fields whose
`ca_order` differs from -1 appear in ascending `ca_order`. -/
def ca_sorted_claim (l : List Field) : Prop :=
  ∀ i j : Nat, i < j → j < l.length →
    (l.getD i (Field.mk "" FieldType.boolean false (-1) none)).get_ca_order ≠ -1 →
    (l.getD j (Field.mk "" FieldType.boolean false (-1) none)).get_ca_order ≠ -1 →
    (l.getD i (Field.mk "" FieldType.boolean false (-1) none)).get_ca_order ≤
      (l.getD j (Field.mk "" FieldType.boolean false (-1) none)).get_ca_order

/-- C6 : the claim fails.  With fields of `ca_order` 5, -1, 1 and the
new column order active, the comparator reports the -1 field equal to both
neighbours, so Rust's stable sort never compares 5 with 1 and returns the
fields unchanged: position 0 holds `ca_order` 5 and position 2 holds
`ca_order` 1, both different from -1 but descending. -/
theorem get_fields_sorted_ca_order_counterexample :
    (get_fields_sorted false (Definition.mk 0
        [Field.mk "a" FieldType.i32 false 5 none,
         Field.mk "b" FieldType.i32 false (-1) none,
         Field.mk "c" FieldType.i32 false 1 none])).map Field.get_ca_order = [5, -1, 1] ∧
    ¬ ca_sorted_claim (get_fields_sorted false (Definition.mk 0
        [Field.mk "a" FieldType.i32 false 5 none,
         Field.mk "b" FieldType.i32 false (-1) none,
         Field.mk "c" FieldType.i32 false 1 none])) := by
  constructor
  · rfl
  · intro h
    have h02 := h 0 2 (by omega) (by decide) (by decide) (by decide)
    exact absurd h02 (by decide)

/-- C6 (amended): with `tables_use_old_column_order` off, `get_fields_sorted`
returns a permutation of the definition's fields in which any two *adjacent*
fields that both have `ca_order` different from -1 appear in ascending
(non-decreasing) `ca_order`; fields with `ca_order` -1 compare equal to
everything, so ordering across such a field is not restored. -/
theorem get_fields_sorted_spec (d : Definition) :
    (get_fields_sorted false d).Perm d.get_fields_processed ∧
    List.Chain' (fun a b => a.get_ca_order ≠ -1 → b.get_ca_order ≠ -1 →
      a.get_ca_order ≤ b.get_ca_order) (get_fields_sorted false d) := by
  constructor
  · exact rust_sort_by_perm _ _
  · refine List.Chain'.imp ?_
      (rust_sort_by_chain (fun a b => cmp_fields false a b == Ordering.lt)
        cmp_fields_asymm d.get_fields_processed)
    intro a b hab hna hnb
    rw [cmp_fields, if_neg (by simp), if_neg (fun hh => hh.elim hnb hna), int_cmp] at hab
    by_cases h2 : b.get_ca_order < a.get_ca_order
    · rw [if_pos h2] at hab
      exact absurd hab (by decide)
    · omega

/-! ## Exact `f32` model

`f32` values are modelled by their exact rational values.  `Frac` is exact
fraction arithmetic over `Int` (numerator, positive denominator, reduced by
construction through `fracMk`), chosen over Mathlib's `ℚ` so that every
operation reduces by plain structural computation in the kernel. -/

structure Frac where
  num : Int
  den : Int
deriving DecidableEq

/-- Euclid's algorithm with explicit fuel (structural recursion, so it
reduces in the kernel). -/
def natGcdF : Nat → Nat → Nat → Nat
  | 0, a, _ => a
  | fuel + 1, a, b => if b = 0 then a else natGcdF fuel b (a % b)

/-- Build the reduced fraction `n / d` (`d ≠ 0`): positive denominator,
numerator and denominator divided by their gcd. -/
def fracMk (n d : Int) : Frac :=
  let s : Int := if d < 0 then -1 else 1
  let n := s * n
  let d := s * d
  let g : Int := (natGcdF 400 n.natAbs d.toNat : Nat)
  if g = 0 then ⟨0, 1⟩ else ⟨n / g, d / g⟩

def Frac.ofInt (n : Int) : Frac := ⟨n, 1⟩

def fracMul (a b : Frac) : Frac := fracMk (a.num * b.num) (a.den * b.den)

def fracDiv (a b : Frac) : Frac := fracMk (a.num * b.den) (a.den * b.num)

def fracMulInt (a : Frac) (n : Int) : Frac := fracMk (a.num * n) a.den

def fracNeg (a : Frac) : Frac := ⟨-a.num, a.den⟩

def fracFloor (a : Frac) : Int := Int.fdiv a.num a.den

/-- Round to the nearest integer, ties to even (the rounding of both IEEE
`f32` arithmetic and Rust's float formatting). -/
def roundHalfEven (a : Frac) : Int :=
  let n := fracFloor a
  let twice := 2 * (a.num - n * a.den)
  if twice < a.den then n
  else if a.den < twice then n + 1
  else if n % 2 = 0 then n else n + 1

/-- `2 ^ k` as a fraction, for `k : Int`. -/
def pow2 (k : Int) : Frac :=
  if 0 ≤ k then ⟨(2 : Int) ^ k.toNat, 1⟩ else ⟨1, (2 : Int) ^ (-k).toNat⟩

/-- Largest `k` with `2 ^ k ≤ n` (`n ≥ 1`), fuel-based. -/
def log2F : Nat → Nat → Nat
  | 0, _ => 0
  | fuel + 1, n => if n ≤ 1 then 0 else log2F fuel (n / 2) + 1

/-- Smallest `k` with `n ≤ 2 ^ k` (`n ≥ 1`), fuel-based. -/
def clog2F : Nat → Nat → Nat
  | 0, _ => 0
  | fuel + 1, n => if n ≤ 1 then 0 else clog2F fuel ((n + 1) / 2) + 1

/-- `⌈a / b⌉` for integers, `b > 0`. -/
def intCeilDiv (a b : Int) : Int := -(Int.fdiv (-a) b)

/-- Largest `e : Int` with `2 ^ e ≤ q`, for `q > 0`. -/
def ratLog2 (q : Frac) : Int :=
  if q.den ≤ q.num then (log2F 400 (fracFloor q).toNat : Int)
  else -(clog2F 400 (intCeilDiv q.den q.num).toNat : Int)

/-- Round a positive rational to the nearest `f32` (normal range, 24-bit
significand, ties to even): scale by the unit in the last place
`2 ^ (e - 23)` and round to an integer. -/
def roundF32pos (q : Frac) : Frac :=
  let e := ratLog2 q
  let ulp := pow2 (e - 23)
  fracMul (Frac.ofInt (roundHalfEven (fracDiv q ulp))) ulp

/-- Round a rational to the nearest `f32` value (`parse::<f32>` of an exact
decimal, and the rounding at the end of every `f32` operation).  The model
covers the normal finite range, where all values of this development live. -/
def roundF32 (q : Frac) : Frac :=
  if q.num = 0 then ⟨0, 1⟩
  else if q.num < 0 then fracNeg (roundF32pos (fracNeg q))
  else roundF32pos q

/-- The exact value of `format!("{:.3}", v)` — `v` rounded at the third
decimal, half to even. -/
def roundTo3 (q : Frac) : Frac := fracMk (roundHalfEven (fracMulInt q 1000)) 1000

/-- The candidate with `d` fractional digits for the shortest display of
`v > 0`: of the two `d`-digit decimals bracketing `v`, the one that parses
back to `v`, preferring the nearer (ties: even last digit, as Ryū does).
Returns the scaled numerator (value `c / 10 ^ d`). -/
def fmtCandidate (v : Frac) (d : Nat) : Option Int :=
  let D : Int := (10 : Int) ^ d
  let lo := fracFloor (fracMulInt v D)
  let hi := lo + 1
  if roundF32 (fracMk lo D) = v then
    if roundF32 (fracMk hi D) = v then
      if 2 * v.num * D < (lo + hi) * v.den then some lo
      else if (lo + hi) * v.den < 2 * v.num * D then some hi
      else if lo % 2 = 0 then some lo else some hi
    else some lo
  else if roundF32 (fracMk hi D) = v then some hi
  else none

def fmtSearch (v : Frac) : Nat → Nat → Option (Nat × Int)
  | 0, _ => none
  | fuel + 1, d =>
    match fmtCandidate v d with
    | some c => some (d, c)
    | none => fmtSearch v fuel (d + 1)

/-- Decimal string of the value `c / 10 ^ d` (`c ≥ 0`), `d` fractional
digits. -/
def decString (c : Int) (d : Nat) : String :=
  if d = 0 then Nat.repr c.toNat
  else
    let D := 10 ^ d
    let n := c.toNat
    let fs := Nat.repr (n % D)
    Nat.repr (n / D) ++ "." ++ String.mk (List.replicate (d - fs.length) '0') ++ fs

def fmtF32pos (v : Frac) : String :=
  match fmtSearch v 200 0 with
  | some (d, c) => decString c d
  | none => decString (fracFloor v) 0

/-- Rust's `Display` for `f32` (`format!("{}", v)`): the shortest decimal
that parses back to the same `f32` — Ryū picks the fewest digits, then the
closest candidate, then an even last digit.  The exact f32 values of this
development all have terminating decimals within the search fuel. -/
def fmtF32 (v : Frac) : String :=
  if v.num = 0 then "0"
  else if v.num < 0 then "-" ++ fmtF32pos (fracNeg v)
  else fmtF32pos v

/-- `data_str.find('.')` succeeding, over the character list (the strings
involved are ASCII, so bytes and characters agree). -/
def str_find_dot (s : String) : Bool := s.data.contains '.'

/-- `data_str[position..].len()` for `position = find('.')`: the byte length
from the dot to the end. -/
def str_from_dot_len (s : String) : Nat :=
  (s.data.dropWhile (fun ch => ch != '.')).length

/-- The float canonicalization block of `get_item_from_decoded_data`
(`utils.rs` lines 418-427): render the value, and when the rendering carries
a decimal point with more than 3 characters from the dot (3 or more
fractional digits), replace the value by `format!("{:.3}", data)` parsed
back as `f32`. -/
def displayCanonF32 (data : Frac) : Frac :=
  let data_str := fmtF32 data
  if str_find_dot data_str then
    let decimals := str_from_dot_len data_str
    if decimals > 3 then roundF32 (roundTo3 data) else data
  else data

/-! ## The Qt item model, `get_item_from_decoded_data` and
`get_table_from_view` -/

/-- A `QVariant`. -/
inductive VariantM where
  | vBool (b : Bool)
  | vInt (n : Int)
  | vI64 (n : Int)
  | vFloat (q : Frac)
  | vString (s : String)
  | vNull
deriving DecidableEq

/-- `QVariant::toFloat` (numeric variants convert, anything else is 0). -/
def VariantM.to_float : VariantM → Frac
  | .vFloat q => q
  | .vInt n => Frac.ofInt n
  | .vI64 n => Frac.ofInt n
  | _ => ⟨0, 1⟩

/-- `QVariant::toInt`. -/
def VariantM.to_int : VariantM → Int
  | .vInt n => n
  | .vI64 n => n
  | _ => 0

/-- `QVariant::toLongLong`. -/
def VariantM.to_long_long : VariantM → Int
  | .vI64 n => n
  | .vInt n => n
  | _ => 0

/-- `QVariant::toString`. -/
def VariantM.to_string_v : VariantM → String
  | .vString s => s
  | _ => ""

/-- A `QStandardItem`, with one field per datum the table utilities store:
the text, the check state, the custom roles `ITEM_HAS_SOURCE_VALUE`,
`ITEM_IS_SEQUENCE`, `ITEM_SOURCE_VALUE`, `ITEM_SEQUENCE_DATA`, and role 2
(`Qt::EditRole`, the value `data_1a(2)` reads back).  The tool tip holds the
argument of the localized `original_data` template. -/
structure QStandardItem where
  text : String := ""
  editable : Bool := true
  checkable : Bool := false
  check_state : Bool := false
  tool_tip : String := ""
  has_source_value : VariantM := VariantM.vNull
  is_sequence : VariantM := VariantM.vNull
  source_value : VariantM := VariantM.vNull
  edit_role : VariantM := VariantM.vNull
  sequence_data : VariantM := VariantM.vNull
deriving DecidableEq

/-- A decoded table cell.  `f32` carries the exact rational value of the
float; the sequence variants carry the `serde_json` serialization of the
nested table (`to_string`/`from_str` are inverse on it, so the payload is
modelled by the serialized string itself). -/
inductive DecodedData where
  | boolean (b : Bool)
  | f32 (v : Frac)
  | i16 (n : Int)
  | i32 (n : Int)
  | i64 (n : Int)
  | stringU8 (s : String)
  | stringU16 (s : String)
  | optionalStringU8 (s : String)
  | optionalStringU16 (s : String)
  | sequenceU16 (json : String)
  | sequenceU32 (json : String)
deriving DecidableEq

/-- `bool::to_string`. -/
def bool_to_string (b : Bool) : String := if b then "true" else "false"

/-- `i16/i32/i64::to_string`. -/
def int_to_string (n : Int) : String :=
  if n < 0 then "-" ++ Nat.repr (-n).toNat else Nat.repr n.toNat

/-- `get_item_from_decoded_data`: build the `QStandardItem` for a decoded
cell.  Every `set_data_2a`/`set_*` call of the source is one field here; the
float arm runs the display canonicalization (`displayCanonF32`) before
storing the value in both `ITEM_SOURCE_VALUE` and role 2. -/
def get_item_from_decoded_data : DecodedData → QStandardItem
  | .boolean data =>
    { has_source_value := VariantM.vBool true
      is_sequence := VariantM.vBool false
      source_value := VariantM.vBool data
      tool_tip := bool_to_string data
      editable := false
      checkable := true
      check_state := data }
  | .f32 data0 =>
    let data := displayCanonF32 data0
    { tool_tip := fmtF32 data
      has_source_value := VariantM.vBool true
      is_sequence := VariantM.vBool false
      source_value := VariantM.vFloat data
      edit_role := VariantM.vFloat data }
  | .i16 data =>
    { tool_tip := int_to_string data
      has_source_value := VariantM.vBool true
      is_sequence := VariantM.vBool false
      source_value := VariantM.vInt data
      edit_role := VariantM.vInt data }
  | .i32 data =>
    { tool_tip := int_to_string data
      has_source_value := VariantM.vBool true
      is_sequence := VariantM.vBool false
      source_value := VariantM.vInt data
      edit_role := VariantM.vInt data }
  | .i64 data =>
    { tool_tip := int_to_string data
      has_source_value := VariantM.vBool true
      is_sequence := VariantM.vBool false
      source_value := VariantM.vI64 data
      edit_role := VariantM.vI64 data }
  | .stringU8 data | .stringU16 data | .optionalStringU8 data | .optionalStringU16 data =>
    { text := data
      tool_tip := data
      has_source_value := VariantM.vBool true
      is_sequence := VariantM.vBool false
      source_value := VariantM.vString data }
  | .sequenceU16 table | .sequenceU32 table =>
    { text := "packedfile_editable_sequence"
      editable := false
      has_source_value := VariantM.vBool false
      is_sequence := VariantM.vBool true
      sequence_data := VariantM.vString table }

/-- The model rows `load_data` builds for a table: one `QStandardItem` per
cell, through `get_item_from_decoded_data`. -/
def load_table_to_model (data : List (List DecodedData)) : List (List QStandardItem) :=
  data.map (fun entry => entry.map get_item_from_decoded_data)

/-- `model.item_2a(row, column)` (an absent item reads as a default
`QStandardItem`, whose variants are null). -/
def model_item (model : List (List QStandardItem)) (row column : Nat) : QStandardItem :=
  (model.getD row []).getD column {}

/-- Rust's `as i16` cast from i32: wrap to 16-bit two's complement. -/
def wrapI16 (n : Int) : Int := (n + 32768) % 65536 - 32768

/-- One cell readback of `get_table_from_view`, per field type, from the
item at the cell's position: booleans from the check state, numbers from
role 2 (the edit role), strings from the text, sequences parsed back from
the serialized payload. -/
def read_cell (item : QStandardItem) : FieldType → DecodedData
  | .boolean => DecodedData.boolean item.check_state
  | .f32 => DecodedData.f32 item.edit_role.to_float
  | .i16 => DecodedData.i16 (wrapI16 item.edit_role.to_int)
  | .i32 => DecodedData.i32 item.edit_role.to_int
  | .i64 => DecodedData.i64 item.edit_role.to_long_long
  | .stringU8 => DecodedData.stringU8 item.text
  | .stringU16 => DecodedData.stringU16 item.text
  | .optionalStringU8 => DecodedData.optionalStringU8 item.text
  | .optionalStringU16 => DecodedData.optionalStringU16 item.text
  | .sequenceU16 _ => DecodedData.sequenceU16 item.sequence_data.to_string_v
  | .sequenceU32 _ => DecodedData.sequenceU32 item.sequence_data.to_string_v

/-- Modelled from the spec: `from_rows(definition, rows) -> Table, fails
with RowWidthMismatch if any row's length != definition.field_count()`
(spec §4.3).  `Table::new` plus `set_table_data` of `rpfm_lib` are not among
the sources at hand; the table is its definition and rows, and installing
rows checks every row's width. -/
structure Table where
  definition : Definition
  entries : List (List DecodedData)

def Table.new (definition : Definition) : Table := ⟨definition, []⟩

def Table.set_table_data (t : Table) (data : List (List DecodedData)) : Except Unit Table :=
  if data.all (fun row => row.length = t.definition.get_fields_processed.length) then
    Except.ok { t with entries := data }
  else Except.error ()

/-- `get_table_from_view`: for every model row and every processed field (in
order, with its column index), read the cell back, then build the table. -/
def get_table_from_view (model : List (List QStandardItem)) (definition : Definition) :
    Except Unit Table :=
  let entries := (List.range model.length).map (fun row =>
    definition.get_fields_processed.enum.map (fun p =>
      read_cell (model_item model row p.1) p.2.get_ref_field_type))
  (Table.new definition).set_table_data entries

/-! ## Float display canonicalization and view round-trip (C2, C3) -/

/-- A cell with every `F32` value replaced by its display canonicalization —
what one pass through the view does to it. -/
def canon_cell : DecodedData → DecodedData
  | .f32 v => .f32 (displayCanonF32 v)
  | c => c

/-- A cell matches its field type (and an `I16` cell carries an `i16`-range
value, as every decoded `i16` does). -/
def cell_wf : DecodedData → FieldType → Bool
  | .boolean _, .boolean => true
  | .f32 _, .f32 => true
  | .i16 n, .i16 => decide (-32768 ≤ n ∧ n < 32768)
  | .i32 _, .i32 => true
  | .i64 _, .i64 => true
  | .stringU8 _, .stringU8 => true
  | .stringU16 _, .stringU16 => true
  | .optionalStringU8 _, .optionalStringU8 => true
  | .optionalStringU16 _, .optionalStringU16 => true
  | .sequenceU16 _, .sequenceU16 _ => true
  | .sequenceU32 _, .sequenceU32 _ => true
  | _, _ => false

/-- Every row matches the definition: width and cell-by-cell types. -/
def rows_wf (definition : Definition) (data : List (List DecodedData)) : Bool :=
  data.all (fun row => row.length == definition.get_fields_processed.length &&
    (row.zip definition.get_fields_processed).all
      (fun p => cell_wf p.1 p.2.get_ref_field_type))

/-- An `F32` cell whose display rendering keeps at most 3 characters from
the decimal point (at most 2 fractional digits), so the canonicalization
branch leaves it alone; non-float cells trivially qualify. -/
def f32_short_display : DecodedData → Bool
  | .f32 v => !str_find_dot (fmtF32 v) || decide (str_from_dot_len (fmtF32 v) ≤ 3)
  | _ => true

theorem displayCanonF32_eq_of_short (v : Frac)
    (h : str_find_dot (fmtF32 v) = true → str_from_dot_len (fmtF32 v) ≤ 3) :
    displayCanonF32 v = v := by
  rw [displayCanonF32]
  by_cases h1 : str_find_dot (fmtF32 v) = true
  · rw [if_pos h1, if_neg (Nat.not_lt.2 (h h1))]
  · rw [if_neg h1]

theorem canon_cell_eq_of_short (cell : DecodedData) (h : f32_short_display cell = true) :
    canon_cell cell = cell := by
  cases cell with
  | f32 v =>
    rw [canon_cell, displayCanonF32_eq_of_short]
    intro h1
    rw [f32_short_display, h1] at h
    simpa using h
  | boolean b => rfl
  | i16 n => rfl
  | i32 n => rfl
  | i64 n => rfl
  | stringU8 s => rfl
  | stringU16 s => rfl
  | optionalStringU8 s => rfl
  | optionalStringU16 s => rfl
  | sequenceU16 s => rfl
  | sequenceU32 s => rfl

/-- Reading one built item back gives the canonicalized cell. -/
theorem read_cell_item (cell : DecodedData) (ft : FieldType)
    (hwf : cell_wf cell ft = true) :
    read_cell (get_item_from_decoded_data cell) ft = canon_cell cell := by
  cases cell with
  | i16 n =>
    cases ft <;> simp only [cell_wf, Bool.false_eq_true] at hwf
    rw [decide_eq_true_eq] at hwf
    show DecodedData.i16 (wrapI16 n) = DecodedData.i16 n
    rw [wrapI16]
    congr 1
    omega
  | boolean b => cases ft <;> simp only [cell_wf, Bool.false_eq_true] at hwf <;> rfl
  | f32 v => cases ft <;> simp only [cell_wf, Bool.false_eq_true] at hwf <;> rfl
  | i32 n => cases ft <;> simp only [cell_wf, Bool.false_eq_true] at hwf <;> rfl
  | i64 n => cases ft <;> simp only [cell_wf, Bool.false_eq_true] at hwf <;> rfl
  | stringU8 s => cases ft <;> simp only [cell_wf, Bool.false_eq_true] at hwf <;> rfl
  | stringU16 s => cases ft <;> simp only [cell_wf, Bool.false_eq_true] at hwf <;> rfl
  | optionalStringU8 s => cases ft <;> simp only [cell_wf, Bool.false_eq_true] at hwf <;> rfl
  | optionalStringU16 s => cases ft <;> simp only [cell_wf, Bool.false_eq_true] at hwf <;> rfl
  | sequenceU16 s => cases ft <;> simp only [cell_wf, Bool.false_eq_true] at hwf <;> rfl
  | sequenceU32 s => cases ft <;> simp only [cell_wf, Bool.false_eq_true] at hwf <;> rfl

theorem enumFrom_read (fields : List Field) (s : Nat) (row : List DecodedData)
    (items : List QStandardItem)
    (hitems : ∀ k, k < row.length → items.getD (s + k) {} =
      get_item_from_decoded_data (row.getD k (DecodedData.boolean false)))
    (hlen : row.length = fields.length)
    (hwf : ∀ p ∈ row.zip fields, cell_wf p.1 p.2.get_ref_field_type = true) :
    (List.enumFrom s fields).map
        (fun p => read_cell (items.getD p.1 {}) p.2.get_ref_field_type) =
      row.map canon_cell := by
  induction fields generalizing s row with
  | nil =>
    cases row with
    | nil => rfl
    | cons c cs => exact absurd hlen (by simp)
  | cons f fs ih =>
    cases row with
    | nil => exact absurd hlen (by simp)
    | cons c cs =>
      rw [List.enumFrom, List.map_cons, List.map_cons]
      have hhead : items.getD s {} = get_item_from_decoded_data c := by
        have := hitems 0 (by simp)
        simpa using this
      have hc : cell_wf c f.get_ref_field_type = true :=
        hwf (c, f) (by rw [List.zip_cons_cons]; simp)
      rw [hhead, read_cell_item c f.get_ref_field_type hc]
      congr 1
      refine ih (s + 1) cs ?_ (by simpa using hlen) ?_
      · intro k hk
        have := hitems (k + 1) (by simpa using Nat.succ_lt_succ hk)
        rw [show s + (k + 1) = s + 1 + k by omega] at this
        simpa using this
      · intro p hp
        exact hwf p (by rw [List.zip_cons_cons]; exact List.mem_cons_of_mem _ hp)

theorem getD_map_item (row : List DecodedData) (k : Nat) (hk : k < row.length) :
    (row.map get_item_from_decoded_data).getD k {} =
      get_item_from_decoded_data (row.getD k (DecodedData.boolean false)) := by
  rw [List.getD_eq_getElem _ _ (by simpa using hk), List.getD_eq_getElem _ _ hk,
    List.getElem_map]

/-- `get_table_from_view` over the model `load_data` builds: the table comes
back with every cell display-canonicalized (only `F32` cells can change). -/
theorem get_table_from_view_load (definition : Definition) (data : List (List DecodedData))
    (hwf : rows_wf definition data = true) :
    get_table_from_view (load_table_to_model data) definition =
      Except.ok ⟨definition, data.map (fun row => row.map canon_cell)⟩ := by
  have hrow : ∀ row ∈ data,
      row.length = definition.get_fields_processed.length ∧
      ∀ p ∈ row.zip definition.get_fields_processed,
        cell_wf p.1 p.2.get_ref_field_type = true := by
    intro row hrow
    rw [rows_wf, List.all_eq_true] at hwf
    have := hwf row hrow
    rw [Bool.and_eq_true, beq_iff_eq, List.all_eq_true] at this
    exact ⟨this.1, this.2⟩
  have hentries : (List.range (load_table_to_model data).length).map (fun row =>
      definition.get_fields_processed.enum.map (fun p =>
        read_cell (model_item (load_table_to_model data) row p.1) p.2.get_ref_field_type)) =
      data.map (fun row => row.map canon_cell) := by
    have hcomp : (List.range (load_table_to_model data).length).map
        (fun r => (load_table_to_model data).getD r []) = load_table_to_model data :=
      map_getD_range (load_table_to_model data) []
    have : (List.range (load_table_to_model data).length).map (fun row =>
        definition.get_fields_processed.enum.map (fun p =>
          read_cell (model_item (load_table_to_model data) row p.1) p.2.get_ref_field_type)) =
        ((List.range (load_table_to_model data).length).map
          (fun r => (load_table_to_model data).getD r [])).map
          (fun mrow => definition.get_fields_processed.enum.map (fun p =>
            read_cell (mrow.getD p.1 {}) p.2.get_ref_field_type)) := by
      rw [List.map_map]
      rfl
    rw [this, hcomp, load_table_to_model, List.map_map]
    refine List.map_congr_left ?_
    intro row hr
    obtain ⟨hlen, hcells⟩ := hrow row hr
    show definition.get_fields_processed.enum.map (fun p =>
        read_cell ((row.map get_item_from_decoded_data).getD p.1 {}) p.2.get_ref_field_type) =
      row.map canon_cell
    exact enumFrom_read definition.get_fields_processed 0 row
      (row.map get_item_from_decoded_data)
      (fun k hk => by simpa using getD_map_item row k hk) hlen hcells
  rw [get_table_from_view, hentries, Table.set_table_data,
    if_pos (by
      rw [List.all_eq_true]
      intro row hr
      obtain ⟨row0, hr0, hre⟩ := List.mem_map.1 hr
      obtain ⟨hlen, _⟩ := hrow row0 hr0
      rw [← hre]
      simpa using hlen)]
  rfl

/-- C2 : the claim fails.  The `f32` value 33/32 (= 1.03125, exactly
representable) renders with 5 fractional digits, so the display item stores
`format!("{:.3}", v)` reparsed — the `f32` nearest 1.031 — in role 2, and
`get_table_from_view` of the merely-viewed table returns that value, not the
original: the float field re-encodes differently. -/
theorem view_roundtrip_f32_counterexample :
    get_table_from_view (load_table_to_model [[DecodedData.f32 ⟨33, 32⟩]])
        (Definition.mk 0 [Field.mk "x" FieldType.f32 false (-1) none]) =
      Except.ok ⟨Definition.mk 0 [Field.mk "x" FieldType.f32 false (-1) none],
        [[DecodedData.f32 ⟨8648655, 8388608⟩]]⟩ ∧
    (⟨8648655, 8388608⟩ : Frac) ≠ ⟨33, 32⟩ :=
  ⟨rfl, by decide⟩

/-- C2 (amended): viewing a table alters exactly the `F32` cells whose
shortest decimal rendering has more than 3 characters from the decimal
point; when every `F32` cell renders with at most 2 fractional digits (or
none), reading the merely-viewed table back yields the original table
exactly, cell for cell. -/
theorem view_roundtrip_preserves_short_floats (definition : Definition)
    (data : List (List DecodedData)) (hwf : rows_wf definition data = true)
    (hshort : data.all (fun row => row.all f32_short_display) = true) :
    get_table_from_view (load_table_to_model data) definition =
      Except.ok ⟨definition, data⟩ := by
  rw [get_table_from_view_load definition data hwf]
  congr 1
  rw [show (⟨definition, data⟩ : Table) =
    ⟨definition, data.map (fun row => row.map (fun c => c))⟩ by simp]
  congr 1
  refine List.map_congr_left ?_
  intro row hr
  refine List.map_congr_left ?_
  intro cell hc
  rw [List.all_eq_true] at hshort
  have := hshort row hr
  rw [List.all_eq_true] at this
  exact canon_cell_eq_of_short cell (this cell hc)

/-- Witness for `view_roundtrip_preserves_short_floats`: a one-row table
with a boolean, the float 0.75 (rendering `"0.75"`, 2 fractional digits),
an i16 and a string survives the view round-trip unchanged. -/
theorem view_roundtrip_preserves_short_floats_witness :
    get_table_from_view (load_table_to_model
        [[DecodedData.boolean true, DecodedData.f32 ⟨3, 4⟩,
          DecodedData.i16 (-5), DecodedData.stringU8 "x"]])
      (Definition.mk 0
        [Field.mk "b" FieldType.boolean false (-1) none,
         Field.mk "f" FieldType.f32 false (-1) none,
         Field.mk "i" FieldType.i16 false (-1) none,
         Field.mk "s" FieldType.stringU8 false (-1) none]) =
    Except.ok ⟨Definition.mk 0
        [Field.mk "b" FieldType.boolean false (-1) none,
         Field.mk "f" FieldType.f32 false (-1) none,
         Field.mk "i" FieldType.i16 false (-1) none,
         Field.mk "s" FieldType.stringU8 false (-1) none],
      [[DecodedData.boolean true, DecodedData.f32 ⟨3, 4⟩,
        DecodedData.i16 (-5), DecodedData.stringU8 "x"]]⟩ :=
  view_roundtrip_preserves_short_floats _ _ (by decide) (by decide)

/-- The C3 claim's "truncated to 3 decimal digits", read literally: the
decimal digits beyond the third are dropped. -/
def truncTo3 (q : Frac) : Frac := fracMk (fracFloor (fracMulInt q 1000)) 1000

/-- C3 : the claim fails twice on the `f32` value 15/16 (= 0.9375).  The
value placed in the display item is `format!("{:.3}", v)` reparsed — a
*rounding* half-to-even at the third decimal (0.938), not a truncation
(0.937) — and that same canonical value sits in role 2 and
`ITEM_SOURCE_VALUE`, where `get_table_from_view` reads storage from, so the
canonicalization is not display-only. -/
theorem get_item_f32_truncation_counterexample :
    (get_item_from_decoded_data (DecodedData.f32 ⟨15, 16⟩)).edit_role =
      VariantM.vFloat ⟨15737029, 16777216⟩ ∧
    (get_item_from_decoded_data (DecodedData.f32 ⟨15, 16⟩)).source_value =
      VariantM.vFloat ⟨15737029, 16777216⟩ ∧
    read_cell (get_item_from_decoded_data (DecodedData.f32 ⟨15, 16⟩)) FieldType.f32 =
      DecodedData.f32 ⟨15737029, 16777216⟩ ∧
    (⟨15737029, 16777216⟩ : Frac) ≠ truncTo3 ⟨15, 16⟩ ∧
    (⟨15737029, 16777216⟩ : Frac) ≠ roundF32 (truncTo3 ⟨15, 16⟩) ∧
    (⟨15737029, 16777216⟩ : Frac) ≠ ⟨15, 16⟩ :=
  ⟨rfl, rfl, rfl, by decide, by decide, by decide⟩

/-- C3 (amended): the display item's value equals `v` unchanged exactly when
`v`'s rendering carries no decimal point or at most 3 characters from it
(at most 2 fractional digits); otherwise it is `v` rounded half-to-even at
the third decimal and reparsed as `f32`.  The canonical value is stored in
both the edit role and the source-value role, so it is also what table
readback stores — the canonicalization is not display-only. -/
theorem get_item_f32_display_canon (v : Frac)
    (hshort : str_find_dot (fmtF32 v) = true → str_from_dot_len (fmtF32 v) ≤ 3) :
    (get_item_from_decoded_data (DecodedData.f32 v)).edit_role = VariantM.vFloat v ∧
    (get_item_from_decoded_data (DecodedData.f32 v)).source_value = VariantM.vFloat v := by
  have h := displayCanonF32_eq_of_short v hshort
  constructor
  · show VariantM.vFloat (displayCanonF32 v) = VariantM.vFloat v
    rw [h]
  · show VariantM.vFloat (displayCanonF32 v) = VariantM.vFloat v
    rw [h]

/-- Witness for `get_item_f32_display_canon` at 0.75. -/
theorem get_item_f32_display_canon_witness :
    (get_item_from_decoded_data (DecodedData.f32 ⟨3, 4⟩)).edit_role =
      VariantM.vFloat ⟨3, 4⟩ ∧
    (get_item_from_decoded_data (DecodedData.f32 ⟨3, 4⟩)).source_value =
      VariantM.vFloat ⟨3, 4⟩ :=
  get_item_f32_display_canon ⟨3, 4⟩ (by decide)

end RPFM
